import Mathlib

/-!
# Verification of the giffusion keyframe scheduling engine

Shallow embedding of the scheduling core of the repository
(`flows/flow_byop.py`, `flows/flow_giffusion.py`, `generate.py`):
Python dicts become association lists with insert-or-update semantics,
NumPy float arrays become `List ℚ`, and external collaborators
(torch tensors, the text encoder, librosa's onset extractor, the
standard-library Mersenne–Twister generator) are abstract parameters,
since the repository treats them as opaque.
-/

set_option maxHeartbeats 1000000

namespace Giffusion

/-! ## Python dict model

A Python `dict` preserves first-insertion order; assigning to an existing
key overwrites the value in place, assigning to a fresh key appends. -/

def dictInsert {K V : Type} [DecidableEq K] (d : List (K × V)) (k : K) (v : V) :
    List (K × V) :=
  match d with
  | [] => [(k, v)]
  | p :: ps => if p.1 = k then (k, v) :: ps else p :: dictInsert ps k v

def dictGet {K V : Type} [DecidableEq K] (d : List (K × V)) (k : K) : Option V :=
  (d.find? (fun p => p.1 = k)).map Prod.snd

def dictKeys {K V : Type} (d : List (K × V)) : List K :=
  d.map Prod.fst

/-! ## NumPy helpers used by the source -/

/-- `np.linspace(a, b, n)`: `n` evenly spaced points from `a` to `b`
inclusive; `n = 1` yields `[a]`, `n = 0` yields `[]`. -/
def linspace (a b : ℚ) (n : ℕ) : List ℚ :=
  if n = 0 then []
  else if n = 1 then [a]
  else (List.range n).map (fun i : ℕ => a + (b - a) * (i : ℚ) / ((n : ℚ) - 1))

/-- `np.cumsum` with an explicit running accumulator. -/
def cumsumFrom (acc : ℚ) : List ℚ → List ℚ
  | [] => []
  | x :: xs => (acc + x) :: cumsumFrom (acc + x) xs

def cumsum (l : List ℚ) : List ℚ := cumsumFrom 0 l

/-- `librosa.util.normalize` (default `norm=np.inf`, `fill=None`): divide by
the maximum absolute value; an (effectively) zero norm leaves the input
unchanged. -/
def libNormalize (l : List ℚ) : List ℚ :=
  let m := (l.map (fun v => |v|)).foldr max 0
  if m = 0 then l else l.map (fun v => v / m)

/-- `np.interp(x, xp, fp)` for increasing sample points `xp`:
clamp outside the range, piecewise-linear inside. -/
def npInterp (x : ℚ) : List ℚ → List ℚ → ℚ
  | x0 :: x1 :: xs, y0 :: y1 :: ys =>
      if x ≤ x0 then y0
      else if x ≤ x1 then y0 + (y1 - y0) * (x - x0) / (x1 - x0)
      else npInterp x (x1 :: xs) (y1 :: ys)
  | [_], [y0] => y0
  | _, _ => 0

/-! ## Interpolation scheduler (`BYOPFlow.get_interpolation_schedule`,
`BYOPFlow.get_interpolation_schedule_from_audio`)

`librosa.onset.onset_strength` is an external collaborator; it appears as
the abstract parameter `onsetStrength`.  The float `NaN` that Python would
produce when the cumulative onset total is zero has no `ℚ` counterpart, so
theorems about the audio path carry a positive-total hypothesis.  The
`schedule_y[-1]` indexing of an empty curve (an `IndexError` in NumPy)
is the `error` branch. -/

inductive ScheduleError : Type
  | emptyOnsetCurve
  deriving DecidableEq, Repr

/-- `audio_slice = audio_array[start_sample:end_sample]` with
`start_sample = int((start_frame / fps) * sr)` and likewise for the end. -/
def audioSlice (start_frame end_frame fps : ℕ) (audio_array : List ℚ) (sr : ℕ) :
    List ℚ :=
  let start_sample := (((start_frame : ℚ) / fps) * sr).floor.toNat
  let end_sample := (((end_frame : ℚ) / fps) * sr).floor.toNat
  (audio_array.drop start_sample).take (end_sample - start_sample)

def get_interpolation_schedule_from_audio (onsetStrength : List ℚ → List ℚ)
    (start_frame end_frame fps : ℕ) (audio_array : List ℚ) (sr : ℕ) :
    Except ScheduleError (List ℚ) :=
  let num_frames := (end_frame - start_frame) + 1
  let audio_slice := audioSlice start_frame end_frame fps audio_array sr
  let onset_env := libNormalize (onsetStrength audio_slice)
  let schedule_x := linspace 0 (onset_env.length : ℚ) onset_env.length
  let schedule_y0 := cumsum onset_env
  match schedule_y0.getLast? with
  | none => .error .emptyOnsetCurve
  | some total =>
    let schedule_y := schedule_y0.map (fun v => v / total)
    let resized_schedule := linspace 0 (schedule_y.length : ℚ) num_frames
    .ok (resized_schedule.map (fun x => npInterp x schedule_x schedule_y))

def get_interpolation_schedule (onsetStrength : List ℚ → List ℚ)
    (start_frame end_frame fps : ℕ) (audio_array : Option (List ℚ)) (sr : ℕ) :
    Except ScheduleError (List ℚ) :=
  match audio_array with
  | some arr =>
      get_interpolation_schedule_from_audio onsetStrength start_frame end_frame fps arr sr
  | none => .ok (linspace 0 1 ((end_frame - start_frame) + 1))

/-! ## Seed scheduler

The standard library's Mersenne Twister behind `random.seed` /
`random.randint` is an external collaborator; only its interface is
embedded: `seedFn` replaces the module's global state, `randint` draws
`random.randint(0, 18446744073709551615)` and advances the state. -/

structure PyRandom (σ : Type) where
  seedFn : ℕ → σ
  randint : σ → ℕ × σ

def drawN {σ : Type} (R : PyRandom σ) : ℕ → σ → List ℕ × σ
  | 0, g => ([], g)
  | n + 1, g =>
    let (v, g1) := R.randint g
    let (rest, g2) := drawN R n g1
    (v :: rest, g2)

/-- `BYOPFlow.__init__`: `random.seed(self.seed)` followed by
`[random.randint(0, 18446744073709551615) for i in range(self.max_frames)]`.
`g` is the incoming global generator state, which `random.seed` replaces. -/
def byopSeedSchedule {σ : Type} (R : PyRandom σ) (g : σ) (seed max_frames : ℕ) :
    List ℕ :=
  let _ := g
  let g0 := R.seedFn seed
  (drawN R max_frames g0).1

/-- `GiffusionFlow.__init__`: `random.seed(self.seed)` followed by the dict
comprehension `{kf: random.randint(0, 18446744073709551615) for kf, _ in
self.key_frames}`. -/
def giffusionSeedSchedule {σ : Type} (R : PyRandom σ) (g : σ) (seed : ℕ)
    (key_frames : List (ℕ × String)) : List (ℕ × ℕ) :=
  let _ := g
  let g0 := R.seedFn seed
  (key_frames.foldl
    (fun (acc : List (ℕ × ℕ) × σ) kf =>
      let (v, g1) := R.randint acc.2
      (dictInsert acc.1 kf.1 v, g1))
    ([], g0)).1

/-- `max_frames = last_frame + 1` where
`last_frame, _ = max(key_frames, key=lambda x: x[0])`. -/
def max_frames (key_frames : List (ℕ × String)) : ℕ :=
  ((key_frames.map Prod.fst).foldl max 0) + 1

/-! ## Batchers -/

/-- One yielded batch of `BYOPFlow.batch_generator`; `torch.cat` along the
batch dimension is kept as the list of concatenated per-frame pieces. -/
structure BYOPBatch (P L I : Type) where
  prompts : List P
  init_latents : List L
  images : List I
  deriving DecidableEq

/-- Loop body of `BYOPFlow.batch_generator`: append the frame's timeline
entries to the pending batch and emit it when
`len(prompt_batch) % batch_size == 0`. -/
def byopBatchStep {P L I : Type} (promptsD : ℕ → P) (init_latentsD : ℕ → L)
    (vframes : Option (ℕ → I)) (batch_size : ℕ)
    (st : List (BYOPBatch P L I) × List P × List L × List I) (frame_idx : ℕ) :
    List (BYOPBatch P L I) × List P × List L × List I :=
  let (done, pb, lb, ib) := st
  let pb := pb ++ [promptsD frame_idx]
  let lb := lb ++ [init_latentsD frame_idx]
  let ib := match vframes with
    | some fr => ib ++ [fr frame_idx]
    | none => ib
  if pb.length % batch_size = 0 then
    (done ++ [⟨pb, lb, ib⟩], [], [], [])
  else
    (done, pb, lb, ib)

/-- `BYOPFlow.batch_generator`.  The timeline dicts `self.prompts` and
`self.init_latents` are passed as (total) lookup functions; `vframes` is
`self.frames` (present only in video mode). -/
def byop_batch_generator {P L I : Type} (promptsD : ℕ → P) (init_latentsD : ℕ → L)
    (vframes : Option (ℕ → I)) (frames : List ℕ) (batch_size : ℕ) :
    List (BYOPBatch P L I) :=
  (frames.foldl (byopBatchStep promptsD init_latentsD vframes batch_size)
    ([], [], [], [])).1

/-- The image entries the batcher collects for the frames `c`: the
per-frame video frames in video mode, nothing otherwise.  (Specification
helper for stating batcher lemmas.) -/
def imgMap {I : Type} (vframes : Option (ℕ → I)) (c : List ℕ) : List I :=
  match vframes with
  | some fr => c.map fr
  | none => []

/-- Loop body of `GiffusionFlow.batch_generator`: append the frame's
timeline entries to the pending batch; at a full batch the final
`frame_idx` is looked up in `seed_schedule` (the dict keyed by keyframe
indices) to seed a fresh `torch.Generator`; a missing key is Python's
`KeyError`, modelled as `error` carrying the offending frame index.  The
per-batch generator is represented by the seed it was created with. -/
def giffBatchStep {E V : Type} (text_embeddingsD : ℕ → E)
    (init_latentsD : ℕ → V) (seed_schedule : List (ℕ × ℕ)) (batch_size : ℕ)
    (st : List (List E × List V × List ℕ) × List E × List V × List ℕ)
    (frame_idx : ℕ) :
    Except ℕ (List (List E × List V × List ℕ) × List E × List V × List ℕ) :=
  let (done, tb, lb, gb) := st
  let tb := tb ++ [text_embeddingsD frame_idx]
  let lb := lb ++ [init_latentsD frame_idx]
  if tb.length % batch_size = 0 then
    match dictGet seed_schedule frame_idx with
    | none => Except.error frame_idx
    | some s => pure (done ++ [(tb, lb, gb ++ [s])], [], [], [])
  else
    pure (done, tb, lb, gb)

/-- `GiffusionFlow.batch_generator`. -/
def giffusion_batch_generator {E V : Type} (text_embeddingsD : ℕ → E)
    (init_latentsD : ℕ → V) (seed_schedule : List (ℕ × ℕ))
    (frames : List ℕ) (batch_size : ℕ) :
    Except ℕ (List (List E × List V × List ℕ)) := do
  let st ← frames.foldlM
    (giffBatchStep text_embeddingsD init_latentsD seed_schedule batch_size)
    (([], [], [], []) :
      List (List E × List V × List ℕ) × List E × List V × List ℕ)
  pure st.1

/-! ## Forward-fill prompt mode (`BYOPFlow.get_prompts`) -/

def ffillAux {α : Type} (carry : Option α) : List (Option α) → List (Option α)
  | [] => []
  | x :: xs =>
    match x with
    | some v => some v :: ffillAux (some v) xs
    | none => carry :: ffillAux carry xs

/-- `pandas.Series.ffill`. -/
def ffill {α : Type} (l : List (Option α)) : List (Option α) := ffillAux none l

/-- The last non-missing value of `l`, else `carry` (specification helper
for `ffill`). -/
def lastSome {α : Type} (carry : Option α) (l : List (Option α)) : Option α :=
  l.foldl (fun acc x => match x with | some v => some v | none => acc) carry

/-- `BYOPFlow.get_prompts`: a Series of `max_frames` NaN entries, keyframe
prompts written at their frame indices, forward-filled, then enumerated into
a dict; a frame before the first keyframe keeps NaN (`none`). -/
def get_prompts (key_frames : List (ℕ × String)) (mf : ℕ) :
    List (ℕ × Option String) :=
  let key_frame_series : List (Option String) :=
    (List.range mf).map (fun _ => none)
  let key_frame_series :=
    key_frames.foldl (fun s kv => s.set kv.1 (some kv.2)) key_frame_series
  let key_frame_series := ffill key_frame_series
  key_frame_series.enum.map (fun it => (it.1, it.2))

/-! ## Timeline builders -/

/-- Loop body of `BYOPFlow.get_init_latents` for one adjacent keyframe
pair `kfp`: resolve the end latent (carried start latent under the fixed
latent flag, else freshly sampled from `seed_schedule[end_frame]`), obtain
the pair's interpolation schedule, and record one slerped latent per
schedule entry at the absolute frame index `i + start_frame`. -/
def byopLatentStep {V : Type} (randn : ℕ → V) (slerpV : ℚ → V → V → V)
    (onsetStrength : List ℚ → List ℚ) (fps : ℕ) (audio_array : Option (List ℚ))
    (sr : ℕ) (seed_schedule : ℕ → ℕ) (use_fixed_latent : Bool)
    (st : V × List (ℕ × V)) (kfp : (ℕ × String) × (ℕ × String)) :
    Except ScheduleError (V × List (ℕ × V)) := do
  let start_frame := kfp.1.1
  let end_frame := kfp.2.1
  let end_latent := if use_fixed_latent then st.1
    else randn (seed_schedule end_frame)
  let interp_schedule ←
    get_interpolation_schedule onsetStrength start_frame end_frame fps
      audio_array sr
  let output := (interp_schedule.enum.map
      (fun it => (it.1 + start_frame, slerpV it.2 st.1 end_latent))).foldl
    (fun d kv => dictInsert d kv.1 kv.2) st.2
  pure (end_latent, output)

/-- `BYOPFlow.get_init_latents`.  For a fixed tensor shape,
`torch.randn(shape, generator=self.generator.manual_seed(s))` is a
deterministic function of `s`, embedded as the abstract `randn`; `slerp`
(from `utils.py`, outside the scheduling core) is abstract as well.  The
per-pair schedule comes from `get_interpolation_schedule`, whose audio path
can fail, so the builder is `Except`-valued; `seed_schedule` lookups are
total because `end_frame < max_frames = len(self.seed_schedule)`. -/
def get_init_latents {V : Type} (randn : ℕ → V) (slerpV : ℚ → V → V → V)
    (onsetStrength : List ℚ → List ℚ) (fps : ℕ) (audio_array : Option (List ℚ))
    (sr : ℕ) (seed : ℕ) (seed_schedule : ℕ → ℕ) (use_fixed_latent : Bool)
    (key_frames : List (ℕ × String)) : Except ScheduleError (List (ℕ × V)) := do
  let start_latent := randn seed
  let st ← (key_frames.zip key_frames.tail).foldlM
    (byopLatentStep randn slerpV onsetStrength fps audio_array sr
      seed_schedule use_fixed_latent)
    (start_latent, ([] : List (ℕ × V)))
  pure st.2

/-- Inner per-fraction loop body of
`GiffusionFlow.get_init_latents_and_text_embeddings`: slerp the latent,
re-pad the two prompt embeddings (exactly as the source re-assigns them on
every iteration), slerp the padded embeddings, and record both results at
the absolute frame index `i + start_frame`. -/
def giffusionInnerStep {V E : Type} (slerpV : ℚ → V → V → V)
    (pad_embedding : E → E → E × E) (slerpE : ℚ → E → E → E)
    (carried_latent end_latent : V) (start_frame : ℕ)
    (acc : E × E × List (ℕ × V) × List (ℕ × E)) (it : ℕ × ℚ) :
    E × E × List (ℕ × V) × List (ℕ × E) :=
  let latents := slerpV it.2 carried_latent end_latent
  let padded := pad_embedding acc.1 acc.2.1
  let embeddings := slerpE it.2 padded.1 padded.2
  (padded.1, padded.2, dictInsert acc.2.2.1 (it.1 + start_frame) latents,
    dictInsert acc.2.2.2 (it.1 + start_frame) embeddings)

/-- Loop body of `GiffusionFlow.get_init_latents_and_text_embeddings` for
one adjacent keyframe pair. -/
def giffusionPairStep {V E : Type} (randn : ℕ → V) (slerpV : ℚ → V → V → V)
    (prompt_to_embedding : String → E) (pad_embedding : E → E → E × E)
    (slerpE : ℚ → E → E → E) (seed_schedule : ℕ → ℕ) (use_fixed_latent : Bool)
    (st : V × List (ℕ × V) × List (ℕ × E))
    (kfp : (ℕ × String) × (ℕ × String)) : V × List (ℕ × V) × List (ℕ × E) :=
  let start_frame := kfp.1.1
  let end_frame := kfp.2.1
  let end_latent := if use_fixed_latent then st.1
    else randn (seed_schedule end_frame)
  let sE := prompt_to_embedding kfp.1.2
  let eE := prompt_to_embedding kfp.2.2
  let num_frames := (end_frame - start_frame) + 1
  let interp_schedule := linspace 0 1 num_frames
  let inner := interp_schedule.enum.foldl
    (giffusionInnerStep slerpV pad_embedding slerpE st.1 end_latent start_frame)
    (sE, eE, st.2.1, st.2.2)
  (end_latent, inner.2.2.1, inner.2.2.2)

/-- `GiffusionFlow.get_init_latents_and_text_embeddings`; the pipeline's
text encoder (`prompt_to_embedding`) and `BaseFlow.pad_embedding` are
external collaborators. -/
def get_init_latents_and_text_embeddings {V E : Type} (randn : ℕ → V)
    (slerpV : ℚ → V → V → V) (prompt_to_embedding : String → E)
    (pad_embedding : E → E → E × E) (slerpE : ℚ → E → E → E)
    (seed : ℕ) (seed_schedule : ℕ → ℕ) (use_fixed_latent : Bool)
    (key_frames : List (ℕ × String)) : List (ℕ × V) × List (ℕ × E) :=
  let start_latent := randn seed
  let st := (key_frames.zip key_frames.tail).foldl
    (giffusionPairStep randn slerpV prompt_to_embedding pad_embedding slerpE
      seed_schedule use_fixed_latent)
    (start_latent, ([] : List (ℕ × V)), ([] : List (ℕ × E)))
  (st.2.1, st.2.2)

/-! ## Capability-aware argument builder (`BYOPFlow.prepare_inputs`) -/

/-- Values placed into `pipe_kwargs`; each constructor tags one kind of
value the source can emit.  `self.generator.manual_seed(s)` re-seeds the
flow's single torch generator and returns it, so a generator value is
represented by the seed state it carries. -/
inductive PVal (P L I : Type) : Type
  | natV (n : ℕ)
  | ratV (q : ℚ)
  | latentsV (l : List L)
  | promptsV (ps : List P)
  | negPromptsV (l : List String)
  | imagesV (l : List I)
  | generatorV (seedState : ℕ)
  deriving DecidableEq

/-- The fields of a `BYOPFlow` instance consulted by `prepare_inputs`
(`self.pipe_signature` was computed once at construction). -/
structure BYOPConfig (P L I : Type) where
  num_inference_steps : ℕ
  guidance_scale : ℚ
  strength : ℚ
  height : ℕ
  width : ℕ
  use_prompt_embeds : Bool
  negative_prompts : String
  image_input : Option I
  video_input : Option Unit
  seed : ℕ
  seed_schedule : List ℕ
  pipe_signature : List String
  additional_pipeline_arguments : List (String × PVal P L I)

/-- One `if "<name>" in self.pipe_signature: pipe_kwargs.update({...})`
step of `prepare_inputs`. -/
def dictInsertIf {K V : Type} [DecidableEq K] (c : Prop) [Decidable c]
    (d : List (K × V)) (k : K) (v : V) : List (K × V) :=
  if c then dictInsert d k v else d

/-- The `prompt_embeds` / `prompt` if-elif of `prepare_inputs`: embeddings
are emitted only in embedding mode when supported, raw prompts only in
raw-prompt mode when supported; otherwise no prompt key at all. -/
def promptBlock {P L I : Type} (sig : List String) (upe : Bool) (prompts : List P)
    (d : List (String × PVal P L I)) : List (String × PVal P L I) :=
  if "prompt_embeds" ∈ sig ∧ upe = true then
    dictInsert d "prompt_embeds" (.promptsV prompts)
  else if "prompt" ∈ sig ∧ upe = false then
    dictInsert d "prompt" (.promptsV prompts)
  else d

/-- The `image` block of `prepare_inputs`: per-frame video frames take
precedence over a static conditioning image. -/
def imageBlock {P L I : Type} (sig : List String) (video_input : Option Unit)
    (image_input : Option I) (images : List I) (prompts : List P)
    (d : List (String × PVal P L I)) : List (String × PVal P L I) :=
  if "image" ∈ sig then
    if video_input.isSome ∧ images.length ≠ 0 then
      dictInsert d "image" (.imagesV images)
    else match image_input with
      | some img => dictInsert d "image"
          (.imagesV (List.replicate prompts.length img))
      | none => d
  else d

def prepare_inputs {P L I : Type} (cfg : BYOPConfig P L I)
    (batch : BYOPBatch P L I) : List (String × PVal P L I) :=
  let prompts := batch.prompts
  let latents := batch.init_latents
  let images := batch.images
  let pipe_kwargs : List (String × PVal P L I) :=
    [("num_inference_steps", .natV cfg.num_inference_steps),
     ("guidance_scale", .ratV cfg.guidance_scale)]
  let pipe_kwargs := dictInsertIf ("height" ∈ cfg.pipe_signature)
    pipe_kwargs "height" (.natV cfg.height)
  let pipe_kwargs := dictInsertIf ("width" ∈ cfg.pipe_signature)
    pipe_kwargs "width" (.natV cfg.width)
  let pipe_kwargs := dictInsertIf ("strength" ∈ cfg.pipe_signature)
    pipe_kwargs "strength" (.ratV cfg.strength)
  let pipe_kwargs := dictInsertIf ("latents" ∈ cfg.pipe_signature)
    pipe_kwargs "latents" (.latentsV latents)
  let pipe_kwargs :=
    promptBlock cfg.pipe_signature cfg.use_prompt_embeds prompts pipe_kwargs
  let pipe_kwargs := dictInsertIf ("negative_prompts" ∈ cfg.pipe_signature)
    pipe_kwargs "negative_prompts"
    (.negPromptsV (List.replicate prompts.length cfg.negative_prompts))
  let pipe_kwargs := imageBlock cfg.pipe_signature cfg.video_input
    cfg.image_input images prompts pipe_kwargs
  let pipe_kwargs := dictInsertIf ("generator" ∈ cfg.pipe_signature)
    pipe_kwargs "generator" (.generatorV cfg.seed)
  cfg.additional_pipeline_arguments.foldl
    (fun d kv => dictInsert d kv.1 kv.2) pipe_kwargs

/-! # Lemmas and claim theorems -/

/-! ## Dict lemmas -/

theorem dictGet_nil {K V : Type} [DecidableEq K] (k : K) :
    dictGet ([] : List (K × V)) k = none := rfl

theorem dictGet_cons {K V : Type} [DecidableEq K] (p : K × V) (d : List (K × V))
    (k : K) : dictGet (p :: d) k = if p.1 = k then some p.2 else dictGet d k := by
  by_cases h : p.1 = k <;> simp [dictGet, List.find?_cons, h]

theorem dictGet_dictInsert {K V : Type} [DecidableEq K] (d : List (K × V))
    (k : K) (v : V) (k' : K) :
    dictGet (dictInsert d k v) k' = if k' = k then some v else dictGet d k' := by
  induction d with
  | nil =>
    by_cases h : k' = k
    · subst h; simp [dictInsert, dictGet_cons]
    · have h2 : ¬ k = k' := fun he => h he.symm
      simp [dictInsert, dictGet_cons, h, h2, dictGet_nil]
  | cons p ps ih =>
    by_cases hpk : p.1 = k
    · subst hpk
      by_cases h : k' = p.1
      · subst h; simp [dictInsert, dictGet_cons]
      · have h2 : ¬ p.1 = k' := fun he => h he.symm
        simp [dictInsert, dictGet_cons, h, h2]
    · by_cases h : p.1 = k'
      · have h2 : ¬ k' = k := fun he => hpk (he ▸ h)
        simp [dictInsert, hpk, dictGet_cons, h, h2]
      · simp [dictInsert, hpk, dictGet_cons, h, ih]

theorem dictKeys_dictInsert {K V : Type} [DecidableEq K] (d : List (K × V))
    (k : K) (v : V) :
    dictKeys (dictInsert d k v) =
      if k ∈ dictKeys d then dictKeys d else dictKeys d ++ [k] := by
  induction d with
  | nil => simp [dictInsert, dictKeys]
  | cons p ps ih =>
    by_cases hpk : p.1 = k
    · subst hpk; simp [dictInsert, dictKeys]
    · have hne : ¬ k = p.1 := fun h => hpk h.symm
      simp only [dictKeys, List.map_cons] at ih ⊢
      by_cases hm : k ∈ List.map Prod.fst ps
      · have : k ∈ p.1 :: List.map Prod.fst ps := List.mem_cons_of_mem _ hm
        simp only [dictInsert, if_neg hpk, List.map_cons, ih, if_pos hm,
          if_pos this]
      · have : k ∉ p.1 :: List.map Prod.fst ps := by
          intro hc
          rcases List.mem_cons.mp hc with h | h
          · exact hne h
          · exact hm h
        simp only [dictInsert, if_neg hpk, List.map_cons, ih, if_neg hm,
          if_neg this, List.cons_append]

theorem mem_dictKeys_iff_isSome {K V : Type} [DecidableEq K] (d : List (K × V))
    (k : K) : k ∈ dictKeys d ↔ (dictGet d k).isSome := by
  induction d with
  | nil => simp [dictKeys, dictGet_nil]
  | cons p ps ih =>
    by_cases h : p.1 = k
    · simp [dictKeys, dictGet_cons, h]
    · have hne : ¬ k = p.1 := fun he => h he.symm
      simp only [dictKeys, List.map_cons, List.mem_cons, dictGet_cons, if_neg h]
      simp only [dictKeys] at ih
      simp [ih, hne]

theorem nodup_dictKeys_dictInsert {K V : Type} [DecidableEq K] (d : List (K × V))
    (k : K) (v : V) (hd : (dictKeys d).Nodup) :
    (dictKeys (dictInsert d k v)).Nodup := by
  rw [dictKeys_dictInsert]
  by_cases hm : k ∈ dictKeys d <;> simp [hm, hd, List.nodup_append]

theorem length_dictInsert {K V : Type} [DecidableEq K] (d : List (K × V))
    (k : K) (v : V) :
    (dictInsert d k v).length =
      if k ∈ dictKeys d then d.length else d.length + 1 := by
  have h1 : (dictInsert d k v).length = (dictKeys (dictInsert d k v)).length := by
    simp [dictKeys]
  have h2 : d.length = (dictKeys d).length := by simp [dictKeys]
  rw [h1, h2, dictKeys_dictInsert]
  by_cases hm : k ∈ dictKeys d <;> simp [hm]

/-! ## C4: seed scheduler determinism -/

/-- C4 (confirmed).  The seed scheduler is deterministic: the incoming
global generator state is discarded by `random.seed(self.seed)`, so two
independent constructions with the same master seed and frame count produce
element-wise identical seed sequences, whatever the generator (`R`) and the
prior states (`g1`, `g2`) were. -/
theorem C4_seed_scheduler_deterministic {σ : Type} (R : PyRandom σ)
    (g1 g2 : σ) (seed n : ℕ) :
    byopSeedSchedule R g1 seed n = byopSeedSchedule R g2 seed n := rfl

/-! ## C3: the seed schedule and batch-final lookups -/

theorem drawN_fst_length {σ : Type} (R : PyRandom σ) (n : ℕ) (g : σ) :
    (drawN R n g).1.length = n := by
  induction n generalizing g with
  | zero => rfl
  | succ m ih => simp [drawN, ih]

/-- C3 (code_bug evaluation).  `BYOPFlow` does build a seed schedule of
length `max_frames` (first conjunct, for every generator model), but
`GiffusionFlow` builds a dict keyed only by keyframe indices: for keyframes
`{0: "A", 5: "B"}` its keys are `[0, 5]`, not one per frame in `[0, 5]`
(second conjunct), and its `batch_generator` with `batch_size = 2` then
fails the seed lookup at the first batch-final frame index `1` — Python's
`KeyError` (third conjunct).  The generator model used for the concrete
conjuncts is an arbitrary executable instance. -/
theorem C3_seed_schedule_lookup :
    (∀ (σ : Type) (R : PyRandom σ) (g : σ) (seed n : ℕ),
        (byopSeedSchedule R g seed n).length = n) ∧
    dictKeys (giffusionSeedSchedule
        (⟨fun s => s, fun s => (s % 18446744073709551616, s + 1)⟩ : PyRandom ℕ)
        0 42 [(0, "A"), (5, "B")]) = [0, 5] ∧
    giffusion_batch_generator (fun _ => (0 : ℕ)) (fun _ => (0 : ℕ))
        (giffusionSeedSchedule
          (⟨fun s => s, fun s => (s % 18446744073709551616, s + 1)⟩ : PyRandom ℕ)
          0 42 [(0, "A"), (5, "B")])
        (List.range (max_frames [(0, "A"), (5, "B")])) 2 = .error 1 := by
  refine ⟨fun σ R g seed n => drawN_fst_length R n _, rfl, rfl⟩

/-! ## C1: the timeline of a single-keyframe sequence -/

/-- C1 (counterexample).  A sequence consisting of a single keyframe yields
an *empty* timeline (the loop over adjacent keyframe pairs runs zero
times), not a schedule of length 1 as the claim states.  Latents are
instantiated with `ℕ` and `slerp` with an arbitrary executable function. -/
theorem C1_counterexample_single_keyframe :
    get_init_latents (fun s => s) (fun _ a _ => a) (fun xs => xs) 10 none 10 42
        (fun _ => 0) false [(0, "A")] = .ok [] ∧
    ([] : List (ℕ × ℕ)).length ≠ 1 := ⟨rfl, by decide⟩

/-! ## C7: the batcher -/

section Batcher

variable {P L I : Type} (promptsD : ℕ → P) (init_latentsD : ℕ → L)
  (vframes : Option (ℕ → I)) (batch_size : ℕ)

theorem imgMap_nil : imgMap vframes [] = [] := by
  cases vframes <;> rfl

theorem imgMap_singleton_append (f : ℕ) (c : List ℕ) :
    imgMap vframes [f] ++ imgMap vframes c = imgMap vframes (f :: c) := by
  cases vframes <;> simp [imgMap]

/-- The image accumulator update in `byopBatchStep`, expressed via
`imgMap`. -/
theorem step_ib_eq (ib : List I) (f : ℕ) :
    (match vframes with
      | some fr => ib ++ [fr f]
      | none => ib) = ib ++ imgMap vframes [f] := by
  cases vframes <;> simp [imgMap]

/-- Consuming too few frames to complete the pending batch emits nothing. -/
theorem byop_bg_no_emit (frames : List ℕ) :
    ∀ (done : List (BYOPBatch P L I)) (pb : List P) (lb : List L) (ib : List I),
      pb.length + frames.length < batch_size →
      (frames.foldl (byopBatchStep promptsD init_latentsD vframes batch_size)
        (done, pb, lb, ib)).1 = done := by
  induction frames with
  | nil => intro done pb lb ib _; rfl
  | cons f rest ih =>
    intro done pb lb ib h
    simp only [List.length_cons] at h
    have hlt : (pb ++ [promptsD f]).length % batch_size ≠ 0 := by
      have h1 : (pb ++ [promptsD f]).length = pb.length + 1 := by simp
      rw [h1, Nat.mod_eq_of_lt (by omega)]
      omega
    simp only [List.foldl_cons, byopBatchStep, if_neg hlt]
    exact ih _ _ _ _ (by simp; omega)

/-- Consuming exactly the `j` frames missing from the pending batch emits
one batch and resets the accumulators. -/
theorem byop_bg_fill :
    ∀ (j : ℕ) (frames : List ℕ) (done : List (BYOPBatch P L I))
      (pb : List P) (lb : List L) (ib : List I), 0 < j →
      pb.length + j = batch_size → j ≤ frames.length →
      frames.foldl (byopBatchStep promptsD init_latentsD vframes batch_size)
        (done, pb, lb, ib) =
      (frames.drop j).foldl
        (byopBatchStep promptsD init_latentsD vframes batch_size)
        (done ++ [⟨pb ++ (frames.take j).map promptsD,
            lb ++ (frames.take j).map init_latentsD,
            ib ++ imgMap vframes (frames.take j)⟩], [], [], []) := by
    intro j
    induction j with
    | zero => intro frames done pb lb ib h0; omega
    | succ j' ih =>
      intro frames done pb lb ib _ hfull hlen
      match frames with
      | [] => simp at hlen
      | f :: rest =>
        simp only [List.length_cons] at hlen
        by_cases hj : j' = 0
        · subst hj
          have hmod : (pb ++ [promptsD f]).length % batch_size = 0 := by
            have h1 : (pb ++ [promptsD f]).length = pb.length + 1 := by simp
            rw [h1]
            have h2 : pb.length + 1 = batch_size := by omega
            rw [h2, Nat.mod_self]
          simp only [List.foldl_cons, byopBatchStep, if_pos hmod,
            step_ib_eq, List.take_succ_cons, List.take_zero,
            List.drop_succ_cons, List.drop_zero, List.map_cons, List.map_nil,
            List.append_nil]
        · have hne : (pb ++ [promptsD f]).length % batch_size ≠ 0 := by
            have h1 : (pb ++ [promptsD f]).length = pb.length + 1 := by simp
            rw [h1, Nat.mod_eq_of_lt (by omega)]
            omega
          simp only [List.foldl_cons, byopBatchStep, if_neg hne, step_ib_eq]
          have hrec := ih rest done (pb ++ [promptsD f])
            (lb ++ [init_latentsD f]) (ib ++ imgMap vframes [f])
            (by omega) (by simp; omega) (by omega)
          rw [hrec]
          simp only [List.take_succ_cons, List.drop_succ_cons, List.map_cons,
            List.append_assoc, List.singleton_append]
          rw [imgMap_singleton_append]

/-- Full characterization of the batcher fold: the yielded batches are the
consecutive windows of `batch_size` frames, one per `i < n / batch_size`. -/
theorem byop_bg_foldl_eq (hb : 0 < batch_size) :
    ∀ (n : ℕ) (frames : List ℕ), frames.length = n →
    ∀ (done : List (BYOPBatch P L I)),
      (frames.foldl (byopBatchStep promptsD init_latentsD vframes batch_size)
        (done, [], [], [])).1 =
      done ++ (List.range (n / batch_size)).map
        (fun i =>
          let c := (frames.drop (i * batch_size)).take batch_size
          (⟨c.map promptsD, c.map init_latentsD,
            imgMap vframes c⟩ : BYOPBatch P L I)) := by
  intro n
  induction n using Nat.strong_induction_on with
  | _ n ih =>
    intro frames hlen done
    by_cases hsmall : n < batch_size
    · have h0 : n / batch_size = 0 := Nat.div_eq_of_lt hsmall
      rw [h0]
      simp only [List.range_zero, List.map_nil, List.append_nil]
      exact byop_bg_no_emit promptsD init_latentsD vframes batch_size frames
        done [] [] [] (by simp [hlen]; omega)
    · push_neg at hsmall
      have hfill := byop_bg_fill promptsD init_latentsD vframes batch_size
        batch_size frames done [] [] [] hb (by simp) (by omega)
      rw [hfill]
      have hdl : (frames.drop batch_size).length = n - batch_size := by
        simp [hlen]
      have hrec := ih (n - batch_size) (by omega) (frames.drop batch_size) hdl
        (done ++ [⟨([] : List P) ++ (frames.take batch_size).map promptsD,
          ([] : List L) ++ (frames.take batch_size).map init_latentsD,
          ([] : List I) ++ imgMap vframes (frames.take batch_size)⟩])
      rw [hrec]
      have hdiv : n / batch_size = (n - batch_size) / batch_size + 1 := by
        have h2 : n - batch_size + batch_size = n := by omega
        calc n / batch_size = (n - batch_size + batch_size) / batch_size := by
              rw [h2]
          _ = (n - batch_size) / batch_size + 1 := Nat.add_div_right _ hb
      rw [hdiv, List.range_succ_eq_map]
      simp only [List.map_cons, List.map_map, List.append_assoc,
        List.singleton_append, Nat.zero_mul, List.drop_zero, List.nil_append]
      congr 1
      congr 1
      refine List.map_congr_left fun i _ => ?_
      simp only [Function.comp_apply, List.drop_drop]
      have harith : batch_size + i * batch_size = Nat.succ i * batch_size := by
        rw [Nat.succ_mul, Nat.add_comm]
      rw [harith]

/-- Concatenating the first `k` windows of `batch_size` consecutive elements
recovers the first `k * batch_size` elements. -/
theorem windows_join (l : List ℕ) :
    ∀ k : ℕ, k * batch_size ≤ l.length →
      ((List.range k).map
        (fun i => (l.drop (i * batch_size)).take batch_size)).flatten =
      l.take (k * batch_size) := by
  intro k
  induction k with
  | zero => intro _; simp
  | succ k ih =>
    intro hk
    rw [Nat.add_mul, Nat.one_mul] at hk
    have hk' : k * batch_size ≤ l.length := by omega
    rw [List.range_succ, List.map_append, List.flatten_append, ih hk']
    simp only [List.map_cons, List.map_nil, List.flatten_cons, List.flatten_nil,
      List.append_nil]
    rw [Nat.add_mul, Nat.one_mul, List.take_add]

/-- Characterization of `BYOPFlow.batch_generator`: it yields exactly
`⌊n / batch_size⌋` batches (conjuncts 1–2), the `i`-th batch is built
from the window of `batch_size` consecutive timeline entries starting at
position `i * batch_size`, each a full window of length `batch_size`
(conjuncts 1 and 3), and the yielded windows together cover exactly the
first `⌊n / batch_size⌋ * batch_size` frames, so the trailing
`n mod batch_size` entries appear in no batch (conjunct 4). -/
theorem byop_batcher_windows {P L I : Type} (promptsD : ℕ → P)
    (init_latentsD : ℕ → L) (vframes : Option (ℕ → I)) (frames : List ℕ)
    (batch_size : ℕ) (hb : 0 < batch_size) :
    byop_batch_generator promptsD init_latentsD vframes frames batch_size =
      (List.range (frames.length / batch_size)).map
        (fun i =>
          let c := (frames.drop (i * batch_size)).take batch_size
          (⟨c.map promptsD, c.map init_latentsD, imgMap vframes c⟩ :
            BYOPBatch P L I)) ∧
    (byop_batch_generator promptsD init_latentsD vframes frames
        batch_size).length = frames.length / batch_size ∧
    (∀ i, i < frames.length / batch_size →
      ((frames.drop (i * batch_size)).take batch_size).length = batch_size) ∧
    ((List.range (frames.length / batch_size)).map
        (fun i => (frames.drop (i * batch_size)).take batch_size)).flatten
      = frames.take (frames.length / batch_size * batch_size) := by
  have hmain : byop_batch_generator promptsD init_latentsD vframes frames
      batch_size =
      (List.range (frames.length / batch_size)).map
        (fun i =>
          let c := (frames.drop (i * batch_size)).take batch_size
          (⟨c.map promptsD, c.map init_latentsD, imgMap vframes c⟩ :
            BYOPBatch P L I)) := by
    have h := byop_bg_foldl_eq promptsD init_latentsD vframes batch_size hb
      frames.length frames rfl []
    simpa [byop_batch_generator] using h
  refine ⟨hmain, ?_, ?_, ?_⟩
  · rw [hmain]; simp
  · intro i hi
    have h1 : Nat.succ i * batch_size ≤ frames.length / batch_size * batch_size :=
      Nat.mul_le_mul_right _ (Nat.succ_le_of_lt hi)
    have h2 : frames.length / batch_size * batch_size ≤ frames.length :=
      Nat.div_mul_le_self _ _
    have h3 := Nat.succ_mul i batch_size
    simp only [List.length_take, List.length_drop]
    omega
  · exact windows_join batch_size frames _ (Nat.div_mul_le_self _ _)

theorem list_getD_drop (l : List ℕ) (m k : ℕ) :
    (l.drop m).getD k 0 = l.getD (m + k) 0 := by
  simp [List.getD_eq_getElem?_getD, List.getElem?_drop]

/-- Consuming too few frames to complete the pending Giffusion batch emits
nothing and performs no seed lookup. -/
theorem giff_bg_no_emit {E V : Type} (textD : ℕ → E) (latentD : ℕ → V)
    (sched : List (ℕ × ℕ)) (b : ℕ) (frames : List ℕ) :
    ∀ (done : List (List E × List V × List ℕ)) (tb : List E) (lb : List V)
      (gb : List ℕ), tb.length + frames.length < b →
      frames.foldlM (giffBatchStep textD latentD sched b) (done, tb, lb, gb) =
        Except.ok (done, tb ++ frames.map textD, lb ++ frames.map latentD, gb) := by
  induction frames with
  | nil =>
    intro done tb lb gb _
    simp only [List.foldlM_nil, List.map_nil, List.append_nil]
    rfl
  | cons f rest ih =>
    intro done tb lb gb h
    simp only [List.length_cons] at h
    have hne : (tb ++ [textD f]).length % b ≠ 0 := by
      have h1 : (tb ++ [textD f]).length = tb.length + 1 := by simp
      rw [h1, Nat.mod_eq_of_lt (by omega)]
      omega
    simp only [List.foldlM_cons, giffBatchStep, if_neg hne, pure_bind]
    rw [ih _ _ _ _ (by simp; omega)]
    simp

/-- Consuming exactly the `j` frames missing from the pending Giffusion
batch emits one batch, seeded from the batch-final frame, and resets the
accumulators. -/
theorem giff_bg_fill {E V : Type} (textD : ℕ → E) (latentD : ℕ → V)
    (sched : List (ℕ × ℕ)) (b : ℕ) :
    ∀ (j : ℕ) (frames : List ℕ) (done : List (List E × List V × List ℕ))
      (tb : List E) (lb : List V) (gb : List ℕ) (s : ℕ), 0 < j →
      tb.length + j = b → j ≤ frames.length →
      dictGet sched (frames.getD (j - 1) 0) = some s →
      frames.foldlM (giffBatchStep textD latentD sched b) (done, tb, lb, gb) =
      (frames.drop j).foldlM (giffBatchStep textD latentD sched b)
        (done ++ [(tb ++ (frames.take j).map textD,
            lb ++ (frames.take j).map latentD, gb ++ [s])], [], [], []) := by
  intro j
  induction j with
  | zero => intro frames done tb lb gb s h0; omega
  | succ j' ih =>
    intro frames done tb lb gb s _ hfull hlen hs
    match frames with
    | [] => simp at hlen
    | f :: rest =>
      simp only [List.length_cons] at hlen
      by_cases hj : j' = 0
      · subst hj
        have hmod : (tb ++ [textD f]).length % b = 0 := by
          have h1 : (tb ++ [textD f]).length = tb.length + 1 := by simp
          rw [h1, show tb.length + 1 = b from by omega, Nat.mod_self]
        simp only [List.foldlM_cons, giffBatchStep, if_pos hmod]
        rw [show dictGet sched f = some s from hs]
        simp

      · have hne : (tb ++ [textD f]).length % b ≠ 0 := by
          have h1 : (tb ++ [textD f]).length = tb.length + 1 := by simp
          rw [h1, Nat.mod_eq_of_lt (by omega)]
          omega
        simp only [List.foldlM_cons, giffBatchStep, if_neg hne, pure_bind]
        have hs' : dictGet sched (rest.getD (j' - 1) 0) = some s := by
          have hidx : (f :: rest).getD (j' + 1 - 1) 0 = rest.getD (j' - 1) 0 := by
            have hj1 : j' + 1 - 1 = Nat.succ (j' - 1) := by omega
            rw [hj1, List.getD_cons_succ]
          rw [hidx] at hs
          exact hs
        have hrec := ih rest done (tb ++ [textD f]) (lb ++ [latentD f]) gb s
          (by omega) (by simp; omega) (by omega) hs'
        rw [hrec]
        simp only [List.take_succ_cons, List.drop_succ_cons, List.map_cons,
          List.append_assoc, List.singleton_append]

/-- Full characterization of the Giffusion batcher fold, provided every
batch-final frame index has a seed entry: the fold succeeds and the yielded
batches are the consecutive windows of `batch_size` frames, each carrying
the seed looked up at its final frame. -/
theorem giff_bg_foldl_eq {E V : Type} (textD : ℕ → E) (latentD : ℕ → V)
    (sched : List (ℕ × ℕ)) (b : ℕ) (hb : 0 < b) :
    ∀ (n : ℕ) (frames : List ℕ), frames.length = n →
      (∀ i, i < n / b →
        (dictGet sched (frames.getD (i * b + (b - 1)) 0)).isSome) →
      ∀ (done : List (List E × List V × List ℕ)),
        ∃ st, frames.foldlM (giffBatchStep textD latentD sched b)
            (done, [], [], []) = Except.ok st ∧
          st.1 = done ++ (List.range (n / b)).map (fun i =>
            let c := (frames.drop (i * b)).take b
            (c.map textD, c.map latentD,
              [(dictGet sched (frames.getD (i * b + (b - 1)) 0)).getD 0])) := by
  intro n
  induction n using Nat.strong_induction_on with
  | _ n ih =>
    intro frames hlen hkeys done
    by_cases hsmall : n < b
    · have h0 : n / b = 0 := Nat.div_eq_of_lt hsmall
      rw [h0]
      simp only [List.range_zero, List.map_nil, List.append_nil]
      exact ⟨_, giff_bg_no_emit textD latentD sched b frames done [] [] []
        (by simp [hlen]; omega), rfl⟩
    · push_neg at hsmall
      have hdiv0 : 0 < n / b := Nat.div_pos hsmall hb
      have hk0 := hkeys 0 hdiv0
      rw [Nat.zero_mul, Nat.zero_add] at hk0
      obtain ⟨s0, hs0⟩ := Option.isSome_iff_exists.mp hk0
      have hfill := giff_bg_fill textD latentD sched b b frames done [] [] []
        s0 hb (by simp) (by omega) hs0
      rw [hfill]
      have hdl : (frames.drop b).length = n - b := by simp [hlen]
      have hkeys' : ∀ i, i < (n - b) / b →
          (dictGet sched ((frames.drop b).getD (i * b + (b - 1)) 0)).isSome := by
        intro i hi
        rw [list_getD_drop]
        have hdiv : n / b = (n - b) / b + 1 := by
          have h2 : n - b + b = n := by omega
          calc n / b = (n - b + b) / b := by rw [h2]
            _ = (n - b) / b + 1 := Nat.add_div_right _ hb
        have hk := hkeys (i + 1) (by omega)
        have harith : (i + 1) * b + (b - 1) = b + (i * b + (b - 1)) := by
          rw [Nat.add_mul, Nat.one_mul]
          omega
        rw [harith] at hk
        exact hk
      obtain ⟨st, hst, hst1⟩ := ih (n - b) (by omega) (frames.drop b) hdl hkeys'
        (done ++ [(([] : List E) ++ (frames.take b).map textD,
          ([] : List V) ++ (frames.take b).map latentD,
          ([] : List ℕ) ++ [s0])])
      refine ⟨st, hst, ?_⟩
      rw [hst1]
      have hdiv : n / b = (n - b) / b + 1 := by
        have h2 : n - b + b = n := by omega
        calc n / b = (n - b + b) / b := by rw [h2]
          _ = (n - b) / b + 1 := Nat.add_div_right _ hb
      rw [hdiv, List.range_succ_eq_map]
      simp only [List.map_cons, List.map_map, List.append_assoc,
        List.singleton_append, Nat.zero_mul, List.drop_zero, List.nil_append]
      congr 1
      congr 1
      · rw [Nat.zero_add, hs0]
        rfl
      · refine List.map_congr_left fun i _ => ?_
        simp only [Function.comp_apply, List.drop_drop, list_getD_drop]
        have harith : b + i * b = Nat.succ i * b := by
          rw [Nat.succ_mul, Nat.add_comm]
        have harith2 : b + (i * b + (b - 1)) = Nat.succ i * b + (b - 1) := by
          rw [Nat.succ_mul]
          omega
        rw [harith, harith2]

/-- C7 counterexample.  The claim asserts the batch/tail behaviour for both
cited batchers; it fails for `GiffusionFlow.batch_generator`.  With
keyframes `{0: "A", 9: "B"}`, the 10 timeline entries `0..9` and
`batch_size = 4` (the claim's own instance), the seed dict has keys
`[0, 9]` only, so the seed lookup at the first batch-final frame index `3`
raises `KeyError`: no batch is ever yielded, instead of the claimed
`floor(10 / 4) = 2` batches. -/
theorem C7_counterexample_giffusion_batcher :
    giffusion_batch_generator (fun i => i) (fun i => i)
        (giffusionSeedSchedule
          (⟨fun s => s, fun s => (s % 18446744073709551616, s + 1)⟩ : PyRandom ℕ)
          0 42 [(0, "A"), (9, "B")])
        (List.range (max_frames [(0, "A"), (9, "B")])) 4 = .error 3 ∧
    ∀ bs : List (List ℕ × List ℕ × List ℕ),
      (Except.error 3 : Except ℕ (List (List ℕ × List ℕ × List ℕ))) ≠
        .ok bs :=
  ⟨rfl, fun _ h => Except.noConfusion h⟩

/-- C7 (amended and proved).  `BYOPFlow.batch_generator` behaves exactly as
claimed for every frame list and positive batch size: it yields the
`⌊n / batch_size⌋` consecutive full windows and drops the trailing
`n mod batch_size` entries (first conjunct, four clauses).
`GiffusionFlow.batch_generator` does so only when every frame index it
may look up has an entry in the keyframe-keyed seed dict (hypothesis of
the second conjunct): then it succeeds with the same windows, each batch
additionally carrying the single generator seed looked up at its final
frame.  Without that proviso the seed lookup can raise `KeyError` before
any batch is yielded, so the claim is false for the Giffusion batcher as
stated. -/
theorem C7_amended_batchers {P L I E V : Type} (promptsD : ℕ → P)
    (init_latentsD : ℕ → L) (vframes : Option (ℕ → I))
    (text_embeddingsD : ℕ → E) (init_latentsG : ℕ → V)
    (seed_schedule : List (ℕ × ℕ)) (frames : List ℕ) (batch_size : ℕ)
    (hb : 0 < batch_size) :
    (byop_batch_generator promptsD init_latentsD vframes frames batch_size =
      (List.range (frames.length / batch_size)).map
        (fun i =>
          let c := (frames.drop (i * batch_size)).take batch_size
          (⟨c.map promptsD, c.map init_latentsD, imgMap vframes c⟩ :
            BYOPBatch P L I)) ∧
     (byop_batch_generator promptsD init_latentsD vframes frames
        batch_size).length = frames.length / batch_size ∧
     (∀ i, i < frames.length / batch_size →
       ((frames.drop (i * batch_size)).take batch_size).length = batch_size) ∧
     ((List.range (frames.length / batch_size)).map
        (fun i => (frames.drop (i * batch_size)).take batch_size)).flatten
       = frames.take (frames.length / batch_size * batch_size)) ∧
    ((∀ f ∈ frames, (dictGet seed_schedule f).isSome) →
      giffusion_batch_generator text_embeddingsD init_latentsG seed_schedule
          frames batch_size =
        .ok ((List.range (frames.length / batch_size)).map
          (fun i =>
            let c := (frames.drop (i * batch_size)).take batch_size
            (c.map text_embeddingsD, c.map init_latentsG,
              [(dictGet seed_schedule
                (frames.getD (i * batch_size + (batch_size - 1)) 0)).getD 0]))) ∧
      (∀ out, giffusion_batch_generator text_embeddingsD init_latentsG
          seed_schedule frames batch_size = .ok out →
        out.length = frames.length / batch_size)) := by
  refine ⟨byop_batcher_windows promptsD init_latentsD vframes frames
    batch_size hb, fun hkeys => ?_⟩
  have hkeys' : ∀ i, i < frames.length / batch_size →
      (dictGet seed_schedule
        (frames.getD (i * batch_size + (batch_size - 1)) 0)).isSome := by
    intro i hi
    have hmul : (i + 1) * batch_size ≤
        frames.length / batch_size * batch_size :=
      Nat.mul_le_mul_right _ (Nat.succ_le_of_lt hi)
    have hle : frames.length / batch_size * batch_size ≤ frames.length :=
      Nat.div_mul_le_self _ _
    have hsucc : (i + 1) * batch_size = i * batch_size + batch_size := by
      rw [Nat.add_mul, Nat.one_mul]
    have hidx : i * batch_size + (batch_size - 1) < frames.length := by omega
    have hgetd : frames.getD (i * batch_size + (batch_size - 1)) 0 =
        frames.get ⟨i * batch_size + (batch_size - 1), hidx⟩ := by
      rw [List.getD_eq_getElem?_getD, List.getElem?_eq_getElem hidx]
      rfl
    rw [hgetd]
    exact hkeys _ (List.get_mem frames _ hidx)
  obtain ⟨st, hst, hst1⟩ := giff_bg_foldl_eq text_embeddingsD init_latentsG
    seed_schedule batch_size hb frames.length frames rfl hkeys' []
  have hgen : giffusion_batch_generator text_embeddingsD init_latentsG
      seed_schedule frames batch_size = .ok st.1 := by
    simp only [giffusion_batch_generator, hst, bind, Except.bind]
    rfl
  rw [List.nil_append] at hst1
  constructor
  · rw [hgen, hst1]
  · intro out hout
    rw [hgen, hst1] at hout
    injection hout with hout
    rw [← hout]
    simp

/-- C7 witness: with `batch_size = 4` and the 10 timeline entries `0..9`,
`BYOPFlow`'s batcher yields exactly the two batches covering entries 0–3
and 4–7, and `GiffusionFlow`'s batcher — given a seed dict with an entry
for every frame, here `i ↦ i + 100` — yields the same two windows, seeded
from their final frames `3` and `7`. -/
theorem C7_amended_batchers_witness :
    byop_batch_generator (fun i => i) (fun i => i) (none : Option (ℕ → ℕ))
        (List.range 10) 4 =
      [⟨[0, 1, 2, 3], [0, 1, 2, 3], []⟩, ⟨[4, 5, 6, 7], [4, 5, 6, 7], []⟩] ∧
    giffusion_batch_generator (fun i => i) (fun i => i)
        ((List.range 10).map (fun i => (i, i + 100))) (List.range 10) 4 =
      .ok [([0, 1, 2, 3], [0, 1, 2, 3], [103]),
           ([4, 5, 6, 7], [4, 5, 6, 7], [107])] := by
  have h := C7_amended_batchers (fun i => i) (fun i => i)
    (none : Option (ℕ → ℕ)) (fun i => i) (fun i => i)
    ((List.range 10).map (fun i => (i, i + 100))) (List.range 10) 4 (by decide)
  refine ⟨?_, ?_⟩
  · rw [h.1.1]
    rfl
  · rw [(h.2 (by decide)).1]
    rfl

end Batcher

/-! ## C6, C8, C10: the capability-aware argument builder -/

section ArgBuilder

theorem dictGet_ite_insert {K V : Type} [DecidableEq K] (c : Prop) [Decidable c]
    (d : List (K × V)) (k : K) (v : V) (k' : K) (h : k' ≠ k) :
    dictGet (if c then dictInsert d k v else d) k' = dictGet d k' := by
  by_cases hc : c <;> simp [hc, dictGet_dictInsert, h]

theorem dictGet_insert_foldl {K V : Type} [DecidableEq K] (ws : List (K × V)) :
    ∀ (d : List (K × V)) (k : K), k ∉ ws.map Prod.fst →
      dictGet (ws.foldl (fun d kv => dictInsert d kv.1 kv.2) d) k = dictGet d k := by
  induction ws with
  | nil => intro d k _; rfl
  | cons w ws ih =>
    intro d k hk
    simp only [List.map_cons, List.mem_cons] at hk
    push_neg at hk
    rw [List.foldl_cons, ih _ _ hk.2, dictGet_dictInsert, if_neg hk.1]

variable {P L I : Type}

theorem dictGet_dictInsertIf_ne {K V : Type} [DecidableEq K] (c : Prop)
    [Decidable c] (d : List (K × V)) (k : K) (v : V) (k' : K) (h : k' ≠ k) :
    dictGet (dictInsertIf c d k v) k' = dictGet d k' := by
  unfold dictInsertIf
  split
  · rw [dictGet_dictInsert, if_neg h]
  · rfl

theorem dictGet_dictInsertIf_pos {K V : Type} [DecidableEq K] (c : Prop)
    [Decidable c] (d : List (K × V)) (k : K) (v : V) (hc : c) :
    dictGet (dictInsertIf c d k v) k = some v := by
  unfold dictInsertIf
  rw [if_pos hc, dictGet_dictInsert, if_pos rfl]

theorem dictGet_promptBlock_ne (sig : List String) (upe : Bool)
    (prompts : List P) (d : List (String × PVal P L I)) (k : String)
    (h1 : k ≠ "prompt_embeds") (h2 : k ≠ "prompt") :
    dictGet (promptBlock sig upe prompts d) k = dictGet d k := by
  unfold promptBlock
  split
  · rw [dictGet_dictInsert, if_neg h1]
  · split
    · rw [dictGet_dictInsert, if_neg h2]
    · rfl

/-- With embedding mode on but `prompt_embeds` unsupported, the prompt
block adds nothing at all. -/
theorem promptBlock_skip (sig : List String) (prompts : List P)
    (d : List (String × PVal P L I)) (hsig : "prompt_embeds" ∉ sig) :
    promptBlock sig true prompts d = d := by
  unfold promptBlock
  rw [if_neg (fun hc => hsig hc.1), if_neg (fun hc => Bool.noConfusion hc.2)]

theorem dictGet_imageBlock_ne (sig : List String) (video_input : Option Unit)
    (image_input : Option I) (images : List I) (prompts : List P)
    (d : List (String × PVal P L I)) (k : String) (h : k ≠ "image") :
    dictGet (imageBlock sig video_input image_input images prompts d) k =
      dictGet d k := by
  unfold imageBlock
  split
  · split
    · rw [dictGet_dictInsert, if_neg h]
    · cases image_input
      · rfl
      · rw [dictGet_dictInsert, if_neg h]
  · rfl

theorem imageBlock_skip (sig : List String) (video_input : Option Unit)
    (image_input : Option I) (images : List I) (prompts : List P)
    (d : List (String × PVal P L I)) (hsig : "image" ∉ sig) :
    imageBlock sig video_input image_input images prompts d = d := by
  unfold imageBlock
  rw [if_neg hsig]

/-- C8 (confirmed).  When the pipeline's capability set is exactly
`{"prompt", "latents"}`, the mapping built by `prepare_inputs` never
contains a `prompt_embeds`, `image`, or `negative_prompts` key — whatever
the configured prompt-embedding mode, conditioning image, video input or
negative prompts are — provided the free-form
`additional_pipeline_arguments` overrides (merged last by the source) do
not themselves carry one of those keys.  The builder is total: irrelevant
options are omitted, never errors. -/
theorem C8_capability_filtering (cfg : BYOPConfig P L I) (batch : BYOPBatch P L I)
    (hsig : cfg.pipe_signature = ["prompt", "latents"])
    (h1 : "prompt_embeds" ∉ cfg.additional_pipeline_arguments.map Prod.fst)
    (h2 : "image" ∉ cfg.additional_pipeline_arguments.map Prod.fst)
    (h3 : "negative_prompts" ∉ cfg.additional_pipeline_arguments.map Prod.fst) :
    dictGet (prepare_inputs cfg batch) "prompt_embeds" = none ∧
    dictGet (prepare_inputs cfg batch) "image" = none ∧
    dictGet (prepare_inputs cfg batch) "negative_prompts" = none := by
  refine ⟨?_, ?_, ?_⟩ <;>
  · simp only [prepare_inputs, hsig]
    rw [dictGet_insert_foldl _ _ _ (by assumption)]
    cases hupe : cfg.use_prompt_embeds <;>
      simp [dictInsertIf, promptBlock, imageBlock, dictGet_dictInsert,
        dictGet_cons, dictGet_nil]

/-- C6 (amended and proved).  When prompt-embedding mode is active but the
pipeline does not accept `prompt_embeds`, `prepare_inputs` silently omits
the prompt argument: the returned mapping contains neither a `prompt` nor a
`prompt_embeds` key (assuming the free-form overrides do not add one), and
the builder returns normally — no error of any kind is raised.  (The
source has no `UnsupportedCapabilityError`; `prepare_inputs` contains no
`raise` at all.) -/
theorem C6_amended_silent_omission (cfg : BYOPConfig P L I)
    (batch : BYOPBatch P L I) (hemb : cfg.use_prompt_embeds = true)
    (hsig : "prompt_embeds" ∉ cfg.pipe_signature)
    (ha1 : "prompt" ∉ cfg.additional_pipeline_arguments.map Prod.fst)
    (ha2 : "prompt_embeds" ∉ cfg.additional_pipeline_arguments.map Prod.fst) :
    dictGet (prepare_inputs cfg batch) "prompt" = none ∧
    dictGet (prepare_inputs cfg batch) "prompt_embeds" = none := by
  constructor <;>
  · simp only [prepare_inputs]
    rw [dictGet_insert_foldl _ _ _ (by assumption)]
    rw [dictGet_dictInsertIf_ne _ _ _ _ _ (by decide)]
    rw [dictGet_imageBlock_ne _ _ _ _ _ _ _ (by decide)]
    rw [dictGet_dictInsertIf_ne _ _ _ _ _ (by decide)]
    rw [hemb, promptBlock_skip _ _ _ hsig]
    rw [dictGet_dictInsertIf_ne _ _ _ _ _ (by decide)]
    rw [dictGet_dictInsertIf_ne _ _ _ _ _ (by decide)]
    rw [dictGet_dictInsertIf_ne _ _ _ _ _ (by decide)]
    rw [dictGet_dictInsertIf_ne _ _ _ _ _ (by decide)]
    simp [dictGet_cons, dictGet_nil]

/-- C6 counterexample.  At a concrete configuration in prompt-embedding
mode whose pipeline accepts only raw `prompt` strings (capability set
`{"prompt", "latents"}`), the builder returns the mapping normally — with
no prompt key of either kind and no error — rather than raising an
`UnsupportedCapabilityError` as the claim states (no such error exists in
the code). -/
theorem C6_counterexample_no_error :
    prepare_inputs
      (⟨50, 15/2, 1/2, 512, 512, true, "", none, none, 42, [], ["prompt", "latents"], []⟩ :
        BYOPConfig ℕ ℕ ℕ)
      (⟨[7], [3], []⟩ : BYOPBatch ℕ ℕ ℕ) =
      [("num_inference_steps", .natV 50), ("guidance_scale", .ratV (15/2)),
       ("latents", .latentsV [3])] := by
  rfl

/-- C10 (confirmed).  Whenever the capability set accepts `generator`,
`prepare_inputs` emits the flow's single torch generator re-seeded with the
master seed (`self.generator.manual_seed(self.seed)`): its value is
`generatorV cfg.seed` for every batch, so all batches of a run receive a
generator in the identical initial state (second conjunct), and the
per-frame `seed_schedule` is never consulted — replacing it by any other
schedule leaves the entire output unchanged (third conjunct). -/
theorem C10_generator_master_seed (cfg : BYOPConfig P L I)
    (hgen : "generator" ∈ cfg.pipe_signature)
    (hadd : "generator" ∉ cfg.additional_pipeline_arguments.map Prod.fst) :
    (∀ batch : BYOPBatch P L I,
      dictGet (prepare_inputs cfg batch) "generator" =
        some (.generatorV cfg.seed)) ∧
    (∀ batch1 batch2 : BYOPBatch P L I,
      dictGet (prepare_inputs cfg batch1) "generator" =
        dictGet (prepare_inputs cfg batch2) "generator") ∧
    (∀ (ss : List ℕ) (batch : BYOPBatch P L I),
      prepare_inputs {cfg with seed_schedule := ss} batch =
        prepare_inputs cfg batch) := by
  have hval : ∀ batch : BYOPBatch P L I,
      dictGet (prepare_inputs cfg batch) "generator" =
        some (.generatorV cfg.seed) := by
    intro batch
    simp only [prepare_inputs]
    rw [dictGet_insert_foldl _ _ _ hadd]
    exact dictGet_dictInsertIf_pos _ _ _ _ hgen
  exact ⟨hval, fun b1 b2 => (hval b1).trans (hval b2).symm, fun ss batch => rfl⟩

/-- C8 witness: a concrete run configuration with embedding mode on, a
conditioning image, a video input and negative prompts configured, against
the capability set `{"prompt", "latents"}`. -/
theorem C8_capability_filtering_witness :
    dictGet (prepare_inputs
      (⟨50, 15/2, 1/2, 512, 512, true, "bad", some 5, some (), 42, [7],
        ["prompt", "latents"], []⟩ : BYOPConfig ℕ ℕ ℕ)
      (⟨[1], [2], [3]⟩ : BYOPBatch ℕ ℕ ℕ)) "prompt_embeds" = none ∧
    dictGet (prepare_inputs
      (⟨50, 15/2, 1/2, 512, 512, true, "bad", some 5, some (), 42, [7],
        ["prompt", "latents"], []⟩ : BYOPConfig ℕ ℕ ℕ)
      (⟨[1], [2], [3]⟩ : BYOPBatch ℕ ℕ ℕ)) "image" = none ∧
    dictGet (prepare_inputs
      (⟨50, 15/2, 1/2, 512, 512, true, "bad", some 5, some (), 42, [7],
        ["prompt", "latents"], []⟩ : BYOPConfig ℕ ℕ ℕ)
      (⟨[1], [2], [3]⟩ : BYOPBatch ℕ ℕ ℕ)) "negative_prompts" = none :=
  C8_capability_filtering _ _ rfl (by simp) (by simp) (by simp)

/-- C6 witness: concrete instance of the amended claim. -/
theorem C6_amended_silent_omission_witness :
    dictGet (prepare_inputs
      (⟨50, 15/2, 1/2, 512, 512, true, "", none, none, 42, [],
        ["prompt", "latents"], []⟩ : BYOPConfig ℕ ℕ ℕ)
      (⟨[7], [3], []⟩ : BYOPBatch ℕ ℕ ℕ)) "prompt" = none ∧
    dictGet (prepare_inputs
      (⟨50, 15/2, 1/2, 512, 512, true, "", none, none, 42, [],
        ["prompt", "latents"], []⟩ : BYOPConfig ℕ ℕ ℕ)
      (⟨[7], [3], []⟩ : BYOPBatch ℕ ℕ ℕ)) "prompt_embeds" = none :=
  C6_amended_silent_omission _ _ rfl (by decide) (by simp) (by simp)

/-- C10 witness: concrete instance with a `generator`-capable pipeline. -/
theorem C10_generator_master_seed_witness :
    dictGet (prepare_inputs
      (⟨50, 15/2, 1/2, 512, 512, true, "", none, none, 42, [9, 9, 9],
        ["generator"], []⟩ : BYOPConfig ℕ ℕ ℕ)
      (⟨[7], [3], []⟩ : BYOPBatch ℕ ℕ ℕ)) "generator" =
      some (.generatorV 42) :=
  (C10_generator_master_seed _ (by decide) (by simp)).1 _

end ArgBuilder

/-! ## C9: forward-fill prompt mode -/

section ForwardFill

theorem lastSome_all_none {α : Type} (l : List (Option α)) :
    (∀ x ∈ l, x = none) → ∀ carry, lastSome carry l = carry := by
  induction l with
  | nil => intro _ carry; rfl
  | cons x xs ih =>
    intro h carry
    have hx : x = none := h x (List.mem_cons_self _ _)
    subst hx
    exact ih (fun y hy => h y (List.mem_cons_of_mem _ hy)) carry

/-- The last non-missing entry determines `lastSome`, whatever the carry. -/
theorem lastSome_eq_of {α : Type} (l : List (Option α)) :
    ∀ (j : ℕ) (v : α), l[j]? = some (some v) →
      (∀ j', j < j' → j' < l.length → l[j']? = some none) →
      ∀ carry, lastSome carry l = some v := by
  induction l with
  | nil => intro j v hj _ _; simp at hj
  | cons x xs ih =>
    intro j v hj hafter carry
    match j with
    | 0 =>
      rw [List.getElem?_cons_zero] at hj
      have hx : x = some v := by injection hj
      subst hx
      have hnone : ∀ y ∈ xs, y = none := by
        intro y hy
        rcases List.mem_iff_getElem?.mp hy with ⟨k, hk⟩
        have h1 : (some v :: xs)[k + 1]? = some none := by
          apply hafter (k + 1) (by omega)
          simp only [List.length_cons]
          have : k < xs.length := by
            by_contra hge
            rw [List.getElem?_eq_none (by omega)] at hk
            exact Option.noConfusion hk
          omega
        rw [List.getElem?_cons_succ, hk] at h1
        injection h1
      show lastSome (some v) xs = some v
      exact lastSome_all_none xs hnone (some v)
    | j + 1 =>
      rw [List.getElem?_cons_succ] at hj
      have hafter' : ∀ j', j < j' → j' < xs.length → xs[j']? = some none := by
        intro j' h1 h2
        have := hafter (j' + 1) (by omega) (by simp; omega)
        rwa [List.getElem?_cons_succ] at this
      cases x with
      | some w => exact ih j v hj hafter' (some w)
      | none => exact ih j v hj hafter' carry

/-- Index view of `ffill`: each position holds the most recent non-missing
value of the prefix up to it. -/
theorem ffillAux_getElem {α : Type} (l : List (Option α)) :
    ∀ (carry : Option α) (i : ℕ), i < l.length →
      (ffillAux carry l)[i]? = some (lastSome carry (l.take (i + 1))) := by
  induction l with
  | nil => intro carry i hi; simp at hi
  | cons x xs ih =>
    intro carry i hi
    match x with
    | some v =>
      match i with
      | 0 => simp [ffillAux, lastSome]
      | i + 1 =>
        simp only [ffillAux, List.getElem?_cons_succ, List.take_succ_cons]
        rw [ih (some v) i (by simp at hi; omega)]
        simp [lastSome]
    | none =>
      match i with
      | 0 => simp [ffillAux, lastSome]
      | i + 1 =>
        simp only [ffillAux, List.getElem?_cons_succ, List.take_succ_cons]
        rw [ih carry i (by simp at hi; omega)]
        simp [lastSome]

/-- Looking a key up in an enumerated list is positional indexing. -/
theorem dictGet_enumFrom {α : Type} (l : List α) :
    ∀ (n k : ℕ), dictGet (List.enumFrom n l) k =
      if n ≤ k then l[k - n]? else none := by
  induction l with
  | nil =>
    intro n k
    split <;> simp [List.enumFrom, dictGet_nil]
  | cons x xs ih =>
    intro n k
    rw [List.enumFrom_cons, dictGet_cons, ih (n + 1) k]
    by_cases h1 : n = k
    · subst h1; simp
    · rw [if_neg h1]
      by_cases h2 : n + 1 ≤ k
      · rw [if_pos h2, if_pos (by omega)]
        have hk : k - n = (k - (n + 1)) + 1 := by omega
        rw [hk, List.getElem?_cons_succ]
      · rw [if_neg h2, if_neg (by omega)]

theorem dictGet_enum {α : Type} (l : List α) (k : ℕ) :
    dictGet l.enum k = l[k]? := by
  have h := dictGet_enumFrom l 0 k
  simpa using h

theorem fold_set_length (kfs : List (ℕ × String)) :
    ∀ base : List (Option String),
      (kfs.foldl (fun s kv => s.set kv.1 (some kv.2)) base).length =
        base.length := by
  induction kfs with
  | nil => intro base; rfl
  | cons kv rest ih => intro base; rw [List.foldl_cons, ih]; simp

theorem fold_set_ne (kfs : List (ℕ × String)) :
    ∀ (base : List (Option String)) (j : ℕ), (∀ kv ∈ kfs, kv.1 ≠ j) →
      (kfs.foldl (fun s kv => s.set kv.1 (some kv.2)) base)[j]? = base[j]? := by
  induction kfs with
  | nil => intro base j _; rfl
  | cons kv rest ih =>
    intro base j h
    rw [List.foldl_cons, ih _ _ (fun kv' h' => h kv' (List.mem_cons_of_mem _ h')),
      List.getElem?_set_ne (h kv (List.mem_cons_self _ _))]

theorem fold_set_at_mem (kfs : List (ℕ × String)) :
    ∀ (base : List (Option String)) (fs : ℕ) (p : String), (fs, p) ∈ kfs →
      fs < base.length → (∀ kv ∈ kfs, kv.1 = fs → kv = (fs, p)) →
      (kfs.foldl (fun s kv => s.set kv.1 (some kv.2)) base)[fs]? =
        some (some p) := by
  induction kfs with
  | nil => intro base fs p hmem _ _; simp at hmem
  | cons kv rest ih =>
    intro base fs p hmem hlt huniq
    rw [List.foldl_cons]
    by_cases hrest : (fs, p) ∈ rest
    · exact ih _ _ _ hrest (by simp [hlt])
        (fun kv' h' => huniq kv' (List.mem_cons_of_mem _ h'))
    · have hkv : kv = (fs, p) := by
        rcases List.mem_cons.mp hmem with h | h
        · exact h.symm
        · exact absurd h hrest
      subst hkv
      have hne : ∀ kv' ∈ rest, kv'.1 ≠ fs := by
        intro kv' h' heq
        exact hrest (huniq kv' (List.mem_cons_of_mem _ h') heq ▸ h')
      rw [fold_set_ne rest _ _ hne, List.getElem?_set_self hlt]

/-- C9 (confirmed).  In raw-prompt (forward-fill) mode, every frame index
with a preceding keyframe resolves to the prompt of the nearest preceding
keyframe, with no interpolation: if `(fs, p)` is a keyframe, `fs ≤ i`, and
every keyframe index `≤ i` is `≤ fs`, then `get_prompts` maps frame `i` to
exactly the string `p`. -/
theorem C9_forward_fill (key_frames : List (ℕ × String)) (mf : ℕ)
    (hsorted : List.Pairwise (fun a b => a.1 < b.1) key_frames)
    (i : ℕ) (hi : i < mf) (fs : ℕ) (p : String)
    (hmem : (fs, p) ∈ key_frames) (hfs : fs ≤ i)
    (hnear : ∀ kv ∈ key_frames, kv.1 ≤ i → kv.1 ≤ fs) :
    dictGet (get_prompts key_frames mf) i = some (some p) := by
  have hout : get_prompts key_frames mf =
      (ffill (key_frames.foldl (fun s kv => s.set kv.1 (some kv.2))
        ((List.range mf).map (fun _ => (none : Option String))))).enum := by
    simp only [get_prompts]
    simp
  rw [hout, dictGet_enum]
  have hbase_len : ((List.range mf).map
      (fun _ => (none : Option String))).length = mf := by simp
  have hser_len : (key_frames.foldl (fun s kv => s.set kv.1 (some kv.2))
      ((List.range mf).map (fun _ => (none : Option String)))).length = mf := by
    rw [fold_set_length, hbase_len]
  rw [ffill, ffillAux_getElem _ none i (by rw [hser_len]; exact hi)]
  have huniq : ∀ kv ∈ key_frames, kv.1 = fs → kv = (fs, p) := by
    intro kv hkv hfst
    by_contra hne
    have hnedup := (hsorted.imp (fun h => ne_of_lt h)).forall
      (fun a b h => h.symm) hkv hmem hne
    exact hnedup (hfst.trans rfl)
  have hat : (key_frames.foldl (fun s kv => s.set kv.1 (some kv.2))
      ((List.range mf).map (fun _ => (none : Option String))))[fs]? =
      some (some p) :=
    fold_set_at_mem _ _ _ _ hmem (by rw [hbase_len]; omega) huniq
  have hafter : ∀ j', fs < j' →
      j' < ((key_frames.foldl (fun s kv => s.set kv.1 (some kv.2))
        ((List.range mf).map (fun _ => (none : Option String)))).take
          (i + 1)).length →
      ((key_frames.foldl (fun s kv => s.set kv.1 (some kv.2))
        ((List.range mf).map (fun _ => (none : Option String)))).take
          (i + 1))[j']? = some none := by
    intro j' hj' hj'len
    rw [List.length_take, hser_len] at hj'len
    have hj'i : j' ≤ i := by omega
    rw [List.getElem?_take, if_pos (by omega)]
    have hne : ∀ kv ∈ key_frames, kv.1 ≠ j' := by
      intro kv hkv heq
      have := hnear kv hkv (by omega)
      omega
    rw [fold_set_ne _ _ _ hne, List.getElem?_map, List.getElem?_range
      (by omega)]
    rfl
  have htake : ((key_frames.foldl (fun s kv => s.set kv.1 (some kv.2))
      ((List.range mf).map (fun _ => (none : Option String)))).take
        (i + 1))[fs]? = some (some p) := by
    rw [List.getElem?_take, if_pos (by omega), hat]
  rw [lastSome_eq_of _ fs p htake hafter none]

/-- C9 witness: for the keyframes `{0: "A", 5: "B"}` (`max_frames = 6`),
frames 0 and 4 resolve to `"A"` and frame 5 resolves to `"B"`. -/
theorem C9_forward_fill_witness :
    dictGet (get_prompts [(0, "A"), (5, "B")] 6) 0 = some (some "A") ∧
    dictGet (get_prompts [(0, "A"), (5, "B")] 6) 4 = some (some "A") ∧
    dictGet (get_prompts [(0, "A"), (5, "B")] 6) 5 = some (some "B") := by
  refine ⟨?_, ?_, ?_⟩
  · exact C9_forward_fill _ 6 (by simp) 0 (by omega) 0 "A"
      (by simp) (by omega)
      (by intro kv hkv h; simp at hkv; rcases hkv with h1 | h1 <;> simp [h1] at h ⊢)
  · exact C9_forward_fill _ 6 (by simp) 4 (by omega) 0 "A"
      (by simp) (by omega)
      (by intro kv hkv h; simp at hkv; rcases hkv with h1 | h1 <;> simp [h1] at h ⊢)
  · exact C9_forward_fill _ 6 (by simp) 5 (by omega) 5 "B"
      (by simp) (by omega)
      (by intro kv hkv h; simp at hkv; rcases hkv with h1 | h1 <;> simp [h1] at h ⊢)

end ForwardFill

/-! ## C1: the timeline builders -/

section Timeline

theorem linspace_length (a b : ℚ) (n : ℕ) : (linspace a b n).length = n := by
  unfold linspace
  split
  · simp [*]
  · split
    · simp [*]
    · rw [List.length_map, List.length_range]

/-- Every schedule the interpolation scheduler returns covers the pair's
frame range: its length is `end_frame - start_frame + 1`. -/
theorem schedule_length (onsetStrength : List ℚ → List ℚ)
    (start_frame end_frame fps : ℕ) (audio_array : Option (List ℚ)) (sr : ℕ)
    (l : List ℚ)
    (h : get_interpolation_schedule onsetStrength start_frame end_frame fps
      audio_array sr = .ok l) :
    l.length = (end_frame - start_frame) + 1 := by
  unfold get_interpolation_schedule at h
  match audio_array with
  | none =>
    simp only at h
    injection h with h
    rw [← h, linspace_length]
  | some arr =>
    simp only [get_interpolation_schedule_from_audio] at h
    split at h
    · exact absurd h (by simp)
    · injection h with h
      rw [← h]
      simp [linspace_length]

theorem dictGet_insertList_isSome {V : Type} (ws : List (ℕ × V)) :
    ∀ (d : List (ℕ × V)) (k : ℕ),
      (dictGet (ws.foldl (fun d kv => dictInsert d kv.1 kv.2) d) k).isSome ↔
        (dictGet d k).isSome ∨ k ∈ ws.map Prod.fst := by
  induction ws with
  | nil => intro d k; simp
  | cons w ws ih =>
    intro d k
    rw [List.foldl_cons, ih]
    rw [show (dictGet (dictInsert d w.1 w.2) k).isSome =
      ((dictGet (dictInsert d w.1 w.2) k).isSome = true) from rfl]
    rw [dictGet_dictInsert]
    by_cases hk : k = w.1 <;> simp [hk]

theorem nodup_insertList {V : Type} (ws : List (ℕ × V)) :
    ∀ d : List (ℕ × V), (dictKeys d).Nodup →
      (dictKeys (ws.foldl (fun d kv => dictInsert d kv.1 kv.2) d)).Nodup := by
  induction ws with
  | nil => intro d hd; exact hd
  | cons w ws ih =>
    intro d hd
    rw [List.foldl_cons]
    exact ih _ (nodup_dictKeys_dictInsert _ _ _ hd)

/-- The keys written for one keyframe pair are the consecutive absolute
frame indices `s, s+1, …, s + len - 1`. -/
theorem enum_write_keys {V : Type} (l : List ℚ) (s : ℕ) (g : ℕ × ℚ → V) :
    (l.enum.map (fun it => ((it.1 + s : ℕ), g it))).map Prod.fst =
      (List.range l.length).map (fun i => i + s) := by
  rw [List.map_map]
  have h1 : (Prod.fst ∘ fun it : ℕ × ℚ => ((it.1 + s : ℕ), g it)) =
      ((fun i => i + s) ∘ Prod.fst) := by
    funext it; rfl
  rw [h1, ← List.map_map, List.enum_map_fst]

theorem mem_range_map_add (n s k : ℕ) :
    k ∈ (List.range n).map (fun i => i + s) ↔ s ≤ k ∧ k < s + n := by
  simp only [List.mem_map, List.mem_range]
  constructor
  · rintro ⟨i, hi, rfl⟩; omega
  · intro h; exact ⟨k - s, by omega, by omega⟩

theorem chain_head_le_getLast :
    ∀ (l : List (ℕ × String)) (x : ℕ × String),
      List.Chain' (fun a b => a.1 < b.1) (x :: l) →
      x.1 ≤ ((x :: l).getLast (by simp)).1 := by
  intro l
  induction l with
  | nil => intro x _; simp [List.getLast]
  | cons y l' ih =>
    intro x hchain
    rw [List.getLast_cons (by simp)]
    have h1 : x.1 < y.1 := (List.chain'_cons.mp hchain).1
    have h2 := ih y (List.chain'_cons.mp hchain).2
    omega

/-- For a sorted keyframe sequence, `max(key_frames)` is the last
keyframe, so `max_frames` is its frame index plus one. -/
theorem max_frames_of_sorted :
    ∀ (l : List (ℕ × String)) (x : ℕ × String),
      List.Chain' (fun a b => a.1 < b.1) (x :: l) →
      max_frames (x :: l) = ((x :: l).getLast (by simp)).1 + 1 := by
  have haux : ∀ (l : List (ℕ × String)) (x : ℕ × String) (acc : ℕ),
      List.Chain' (fun a b => a.1 < b.1) (x :: l) → acc ≤ x.1 →
      ((x :: l).map Prod.fst).foldl max acc = ((x :: l).getLast (by simp)).1 := by
    intro l
    induction l with
    | nil =>
      intro x acc _ hacc
      simp [List.getLast]
      omega
    | cons y l' ih =>
      intro x acc hchain hacc
      rw [List.map_cons, List.foldl_cons, List.getLast_cons (by simp)]
      have h1 : x.1 < y.1 := (List.chain'_cons.mp hchain).1
      exact ih y (max acc x.1) (List.chain'_cons.mp hchain).2 (by omega)
  intro l x hchain
  unfold max_frames
  rw [haux l x 0 hchain (by omega)]

theorem dictGet_dictInsert_isSome {V : Type} (d : List (ℕ × V)) (k : ℕ) (v : V)
    (n : ℕ) :
    (dictGet (dictInsert d k v) n).isSome ↔ n = k ∨ (dictGet d n).isSome := by
  rw [dictGet_dictInsert]
  by_cases h : n = k <;> simp [h]

/-- Lookup and key-distinctness facts for one `byopLatentStep` that
succeeded: exactly the frame indices of the pair's range are added. -/
theorem byopLatentStep_lookup {V : Type} (randn : ℕ → V)
    (slerpV : ℚ → V → V → V) (onsetStrength : List ℚ → List ℚ) (fps : ℕ)
    (audio_array : Option (List ℚ)) (sr : ℕ) (seed_schedule : ℕ → ℕ)
    (use_fixed_latent : Bool) (st : V × List (ℕ × V))
    (kfp : (ℕ × String) × (ℕ × String)) (out : V × List (ℕ × V))
    (hle : kfp.1.1 ≤ kfp.2.1)
    (hstep : byopLatentStep randn slerpV onsetStrength fps audio_array sr
      seed_schedule use_fixed_latent st kfp = .ok out) :
    (∀ n, (dictGet out.2 n).isSome ↔
      (dictGet st.2 n).isSome ∨ (kfp.1.1 ≤ n ∧ n ≤ kfp.2.1)) ∧
    ((dictKeys st.2).Nodup → (dictKeys out.2).Nodup) := by
  simp only [byopLatentStep] at hstep
  cases hsched : get_interpolation_schedule onsetStrength kfp.1.1 kfp.2.1 fps
      audio_array sr with
  | error e =>
    rw [hsched] at hstep
    exact absurd hstep (by simp [Bind.bind, Except.bind])
  | ok l =>
    rw [hsched] at hstep
    simp only [Bind.bind, Except.bind, pure, Except.pure, Except.ok.injEq]
      at hstep
    have hlen : l.length = (kfp.2.1 - kfp.1.1) + 1 :=
      schedule_length _ _ _ _ _ _ _ hsched
    constructor
    · intro n
      rw [← hstep, dictGet_insertList_isSome, enum_write_keys,
        mem_range_map_add, hlen]
      apply or_congr_right
      constructor <;> intro h <;> omega
    · intro hnd
      rw [← hstep]
      exact nodup_insertList _ _ hnd

/-- Invariant of the `get_init_latents` fold over adjacent keyframe pairs:
a successful fold over the pairs of `f :: rest` adds to the accumulated
dict exactly the frame indices from `f` to the last keyframe (nothing when
`rest` is empty), preserving key distinctness. -/
theorem byop_fold_inv {V : Type} (randn : ℕ → V) (slerpV : ℚ → V → V → V)
    (onsetStrength : List ℚ → List ℚ) (fps : ℕ)
    (audio_array : Option (List ℚ)) (sr : ℕ) (seed_schedule : ℕ → ℕ)
    (use_fixed_latent : Bool) :
    ∀ (rest : List (ℕ × String)) (f : ℕ × String) (a out : V × List (ℕ × V)),
      List.Chain' (fun x y => x.1 < y.1) (f :: rest) →
      ((f :: rest).zip rest).foldlM
        (byopLatentStep randn slerpV onsetStrength fps audio_array sr
          seed_schedule use_fixed_latent) a = .ok out →
      (∀ n, (dictGet out.2 n).isSome ↔
        (dictGet a.2 n).isSome ∨
          (rest ≠ [] ∧ f.1 ≤ n ∧ n ≤ (((f :: rest).getLast (by simp)).1))) ∧
      ((dictKeys a.2).Nodup → (dictKeys out.2).Nodup) := by
  intro rest
  induction rest with
  | nil =>
    intro f a out _ hfold
    rw [show ((f :: []).zip ([] : List (ℕ × String))) = [] from rfl,
      List.foldlM_nil] at hfold
    have ha : a = out := by
      simpa [pure, Except.pure] using hfold
    subst ha
    simp
  | cons g rest' ih =>
    intro f a out hchain hfold
    rw [show ((f :: g :: rest').zip (g :: rest')) =
      (f, g) :: ((g :: rest').zip rest') from rfl, List.foldlM_cons] at hfold
    have hfg : f.1 < g.1 := (List.chain'_cons.mp hchain).1
    have hchain' : List.Chain' (fun x y => x.1 < y.1) (g :: rest') :=
      (List.chain'_cons.mp hchain).2
    cases hstep : byopLatentStep randn slerpV onsetStrength fps audio_array sr
        seed_schedule use_fixed_latent a (f, g) with
    | error e =>
      rw [hstep] at hfold
      exact absurd hfold (by simp [Bind.bind, Except.bind])
    | ok a1 =>
      rw [hstep] at hfold
      simp only [Bind.bind, Except.bind] at hfold
      have hsl := byopLatentStep_lookup randn slerpV onsetStrength fps
        audio_array sr seed_schedule use_fixed_latent a (f, g) a1
        (le_of_lt hfg) hstep
      have hih := ih g a1 out hchain' hfold
      have hsl1 : ∀ n, (dictGet a1.2 n).isSome ↔
          (dictGet a.2 n).isSome ∨ (f.1 ≤ n ∧ n ≤ g.1) := by
        intro n
        simpa using hsl.1 n
      constructor
      · intro n
        rw [hih.1 n, hsl1 n]
        cases rest' with
        | nil =>
          have hgl : ((f :: g :: ([] : List (ℕ × String))).getLast
            (by simp)) = g := rfl
          have hgl2 : ((g :: ([] : List (ℕ × String))).getLast
            (by simp)) = g := rfl
          rw [hgl, hgl2]
          constructor
          · rintro ((h | h) | h)
            · exact Or.inl h
            · exact Or.inr ⟨by simp, h⟩
            · exact (h.1 rfl).elim
          · rintro (h | h)
            · exact Or.inl (Or.inl h)
            · exact Or.inl (Or.inr h.2)
        | cons h2 rest'' =>
          have hgle : g.1 ≤ (((g :: h2 :: rest'').getLast (by simp)).1) :=
            chain_head_le_getLast _ _ hchain'
          rw [show ((f :: g :: h2 :: rest'').getLast (by simp)) =
            ((g :: h2 :: rest'').getLast (by simp)) from rfl]
          constructor
          · rintro ((h | h) | h)
            · exact Or.inl h
            · exact Or.inr ⟨by simp, h.1, by omega⟩
            · exact Or.inr ⟨by simp, by omega, h.2.2⟩
          · rintro (h | ⟨_, h1, h2⟩)
            · exact Or.inl (Or.inl h)
            · by_cases hng : n ≤ g.1
              · exact Or.inl (Or.inr ⟨h1, hng⟩)
              · exact Or.inr ⟨by simp, by omega, h2⟩
      · intro hnd
        exact hih.2 (hsl.2 hnd)

theorem merge_last (P A B Q R : Prop) (hQ : ¬ Q) (hR : R) :
    ((P ∨ A) ∨ (Q ∧ B)) ↔ (P ∨ (R ∧ A)) := by tauto

theorem merge_interval (P Q R : Prop) (hQ : Q) (hR : R) (f g L n : ℕ)
    (hfg : f ≤ g) (hgL : g ≤ L) :
    ((P ∨ (f ≤ n ∧ n ≤ g)) ∨ (Q ∧ g ≤ n ∧ n ≤ L)) ↔
      (P ∨ (R ∧ f ≤ n ∧ n ≤ L)) := by
  constructor
  · rintro ((h | h) | h)
    · exact Or.inl h
    · exact Or.inr ⟨hR, h.1, by omega⟩
    · exact Or.inr ⟨hR, by omega, h.2.2⟩
  · rintro (h | ⟨_, h1, h2⟩)
    · exact Or.inl (Or.inl h)
    · by_cases hng : n ≤ g
      · exact Or.inl (Or.inr ⟨h1, hng⟩)
      · exact Or.inr ⟨hQ, by omega, h2⟩

/-- The inner loop of the Giffusion builder adds to each of its two dicts
exactly the keys `it.1 + start_frame` for the enumerated schedule. -/
theorem giff_inner_lookup {V E : Type} (slerpV : ℚ → V → V → V)
    (pad_embedding : E → E → E × E) (slerpE : ℚ → E → E → E)
    (carried endL : V) (s : ℕ) :
    ∀ (el : List (ℕ × ℚ)) (sE eE : E) (latD : List (ℕ × V))
      (txtD : List (ℕ × E)),
      (∀ n, (dictGet (el.foldl (giffusionInnerStep slerpV pad_embedding slerpE
          carried endL s) (sE, eE, latD, txtD)).2.2.1 n).isSome ↔
        (dictGet latD n).isSome ∨ n ∈ el.map (fun it => it.1 + s)) ∧
      (∀ n, (dictGet (el.foldl (giffusionInnerStep slerpV pad_embedding slerpE
          carried endL s) (sE, eE, latD, txtD)).2.2.2 n).isSome ↔
        (dictGet txtD n).isSome ∨ n ∈ el.map (fun it => it.1 + s)) ∧
      ((dictKeys latD).Nodup →
        (dictKeys (el.foldl (giffusionInnerStep slerpV pad_embedding slerpE
          carried endL s) (sE, eE, latD, txtD)).2.2.1).Nodup) ∧
      ((dictKeys txtD).Nodup →
        (dictKeys (el.foldl (giffusionInnerStep slerpV pad_embedding slerpE
          carried endL s) (sE, eE, latD, txtD)).2.2.2).Nodup) := by
  intro el
  induction el with
  | nil => intro sE eE latD txtD; simp
  | cons it el' ih =>
    intro sE eE latD txtD
    rw [List.foldl_cons]
    rw [show giffusionInnerStep slerpV pad_embedding slerpE carried endL s
        (sE, eE, latD, txtD) it =
      ((pad_embedding sE eE).1, (pad_embedding sE eE).2,
        dictInsert latD (it.1 + s) (slerpV it.2 carried endL),
        dictInsert txtD (it.1 + s)
          (slerpE it.2 (pad_embedding sE eE).1 (pad_embedding sE eE).2))
      from rfl]
    obtain ⟨ih1, ih2, ih3, ih4⟩ := ih (pad_embedding sE eE).1
      (pad_embedding sE eE).2
      (dictInsert latD (it.1 + s) (slerpV it.2 carried endL))
      (dictInsert txtD (it.1 + s)
        (slerpE it.2 (pad_embedding sE eE).1 (pad_embedding sE eE).2))
    refine ⟨?_, ?_, ?_, ?_⟩
    · intro n
      rw [ih1 n, dictGet_dictInsert_isSome]
      simp only [List.map_cons, List.mem_cons]
      tauto
    · intro n
      rw [ih2 n, dictGet_dictInsert_isSome]
      simp only [List.map_cons, List.mem_cons]
      tauto
    · intro hnd
      exact ih3 (nodup_dictKeys_dictInsert _ _ _ hnd)
    · intro hnd
      exact ih4 (nodup_dictKeys_dictInsert _ _ _ hnd)

/-- Lookup and key-distinctness facts for one `giffusionPairStep`: exactly
the frame indices of the pair's range are added to both dicts. -/
theorem giffusionPairStep_lookup {V E : Type} (randn : ℕ → V)
    (slerpV : ℚ → V → V → V) (prompt_to_embedding : String → E)
    (pad_embedding : E → E → E × E) (slerpE : ℚ → E → E → E)
    (seed_schedule : ℕ → ℕ) (use_fixed_latent : Bool)
    (st : V × List (ℕ × V) × List (ℕ × E))
    (kfp : (ℕ × String) × (ℕ × String)) (hle : kfp.1.1 ≤ kfp.2.1) :
    (∀ n, (dictGet (giffusionPairStep randn slerpV prompt_to_embedding
        pad_embedding slerpE seed_schedule use_fixed_latent st kfp).2.1
        n).isSome ↔
      (dictGet st.2.1 n).isSome ∨ (kfp.1.1 ≤ n ∧ n ≤ kfp.2.1)) ∧
    (∀ n, (dictGet (giffusionPairStep randn slerpV prompt_to_embedding
        pad_embedding slerpE seed_schedule use_fixed_latent st kfp).2.2
        n).isSome ↔
      (dictGet st.2.2 n).isSome ∨ (kfp.1.1 ≤ n ∧ n ≤ kfp.2.1)) ∧
    ((dictKeys st.2.1).Nodup →
      (dictKeys (giffusionPairStep randn slerpV prompt_to_embedding
        pad_embedding slerpE seed_schedule use_fixed_latent st kfp).2.1).Nodup) ∧
    ((dictKeys st.2.2).Nodup →
      (dictKeys (giffusionPairStep randn slerpV prompt_to_embedding
        pad_embedding slerpE seed_schedule use_fixed_latent st kfp).2.2).Nodup)
    := by
  obtain ⟨hi1, hi2, hi3, hi4⟩ := giff_inner_lookup slerpV pad_embedding slerpE
    st.1 (if use_fixed_latent then st.1 else randn (seed_schedule kfp.2.1))
    kfp.1.1 ((linspace 0 1 ((kfp.2.1 - kfp.1.1) + 1)).enum)
    (prompt_to_embedding kfp.1.2) (prompt_to_embedding kfp.2.2) st.2.1 st.2.2
  have hkeys : ((linspace 0 1 ((kfp.2.1 - kfp.1.1) + 1)).enum).map
      (fun it => it.1 + kfp.1.1) =
      (List.range ((kfp.2.1 - kfp.1.1) + 1)).map (fun i => i + kfp.1.1) := by
    rw [show (fun it : ℕ × ℚ => it.1 + kfp.1.1) =
      ((fun i => i + kfp.1.1) ∘ Prod.fst) from rfl, ← List.map_map,
      List.enum_map_fst, linspace_length]
  have hmem : ∀ n, (n ∈ ((linspace 0 1 ((kfp.2.1 - kfp.1.1) + 1)).enum).map
      (fun it => it.1 + kfp.1.1)) ↔ (kfp.1.1 ≤ n ∧ n ≤ kfp.2.1) := by
    intro n
    rw [hkeys, mem_range_map_add]
    constructor <;> intro h <;> omega
  refine ⟨?_, ?_, ?_, ?_⟩
  · intro n
    rw [show (giffusionPairStep randn slerpV prompt_to_embedding
      pad_embedding slerpE seed_schedule use_fixed_latent st kfp).2.1 =
      (((linspace 0 1 ((kfp.2.1 - kfp.1.1) + 1)).enum).foldl
        (giffusionInnerStep slerpV pad_embedding slerpE st.1
          (if use_fixed_latent then st.1 else randn (seed_schedule kfp.2.1))
          kfp.1.1)
        (prompt_to_embedding kfp.1.2, prompt_to_embedding kfp.2.2,
          st.2.1, st.2.2)).2.2.1 from rfl]
    rw [hi1 n, hmem n]
  · intro n
    rw [show (giffusionPairStep randn slerpV prompt_to_embedding
      pad_embedding slerpE seed_schedule use_fixed_latent st kfp).2.2 =
      (((linspace 0 1 ((kfp.2.1 - kfp.1.1) + 1)).enum).foldl
        (giffusionInnerStep slerpV pad_embedding slerpE st.1
          (if use_fixed_latent then st.1 else randn (seed_schedule kfp.2.1))
          kfp.1.1)
        (prompt_to_embedding kfp.1.2, prompt_to_embedding kfp.2.2,
          st.2.1, st.2.2)).2.2.2 from rfl]
    rw [hi2 n, hmem n]
  · intro hnd
    exact hi3 hnd
  · intro hnd
    exact hi4 hnd

/-- Invariant of the Giffusion builder's fold over adjacent keyframe
pairs, for both the latent and the embedding timeline. -/
theorem giffusion_fold_inv {V E : Type} (randn : ℕ → V)
    (slerpV : ℚ → V → V → V) (prompt_to_embedding : String → E)
    (pad_embedding : E → E → E × E) (slerpE : ℚ → E → E → E)
    (seed_schedule : ℕ → ℕ) (use_fixed_latent : Bool) :
    ∀ (rest : List (ℕ × String)) (f : ℕ × String)
      (a : V × List (ℕ × V) × List (ℕ × E)),
      List.Chain' (fun x y => x.1 < y.1) (f :: rest) →
      (∀ n, (dictGet (((f :: rest).zip rest).foldl
          (giffusionPairStep randn slerpV prompt_to_embedding pad_embedding
            slerpE seed_schedule use_fixed_latent) a).2.1 n).isSome ↔
        (dictGet a.2.1 n).isSome ∨
          (rest ≠ [] ∧ f.1 ≤ n ∧ n ≤ (((f :: rest).getLast (by simp)).1))) ∧
      (∀ n, (dictGet (((f :: rest).zip rest).foldl
          (giffusionPairStep randn slerpV prompt_to_embedding pad_embedding
            slerpE seed_schedule use_fixed_latent) a).2.2 n).isSome ↔
        (dictGet a.2.2 n).isSome ∨
          (rest ≠ [] ∧ f.1 ≤ n ∧ n ≤ (((f :: rest).getLast (by simp)).1))) ∧
      ((dictKeys a.2.1).Nodup →
        (dictKeys (((f :: rest).zip rest).foldl
          (giffusionPairStep randn slerpV prompt_to_embedding pad_embedding
            slerpE seed_schedule use_fixed_latent) a).2.1).Nodup) ∧
      ((dictKeys a.2.2).Nodup →
        (dictKeys (((f :: rest).zip rest).foldl
          (giffusionPairStep randn slerpV prompt_to_embedding pad_embedding
            slerpE seed_schedule use_fixed_latent) a).2.2).Nodup) := by
  intro rest
  induction rest with
  | nil =>
    intro f a _
    rw [show ((f :: []).zip ([] : List (ℕ × String))) = [] from rfl,
      List.foldl_nil]
    simp
  | cons g rest' ih =>
    intro f a hchain
    rw [show ((f :: g :: rest').zip (g :: rest')) =
      (f, g) :: ((g :: rest').zip rest') from rfl, List.foldl_cons]
    have hfg : f.1 < g.1 := (List.chain'_cons.mp hchain).1
    have hchain' : List.Chain' (fun x y => x.1 < y.1) (g :: rest') :=
      (List.chain'_cons.mp hchain).2
    obtain ⟨hp1, hp2, hp3, hp4⟩ := giffusionPairStep_lookup randn slerpV
      prompt_to_embedding pad_embedding slerpE seed_schedule use_fixed_latent
      a (f, g) (le_of_lt hfg)
    obtain ⟨hih1, hih2, hih3, hih4⟩ := ih g
      (giffusionPairStep randn slerpV prompt_to_embedding pad_embedding
        slerpE seed_schedule use_fixed_latent a (f, g)) hchain'
    have hp1' : ∀ n, (dictGet (giffusionPairStep randn slerpV
        prompt_to_embedding pad_embedding slerpE seed_schedule
        use_fixed_latent a (f, g)).2.1 n).isSome ↔
        (dictGet a.2.1 n).isSome ∨ (f.1 ≤ n ∧ n ≤ g.1) := by
      intro n; simpa using hp1 n
    have hp2' : ∀ n, (dictGet (giffusionPairStep randn slerpV
        prompt_to_embedding pad_embedding slerpE seed_schedule
        use_fixed_latent a (f, g)).2.2 n).isSome ↔
        (dictGet a.2.2 n).isSome ∨ (f.1 ≤ n ∧ n ≤ g.1) := by
      intro n; simpa using hp2 n
    cases rest' with
    | nil =>
      have hgl : ((f :: g :: ([] : List (ℕ × String))).getLast
        (by simp)) = g := rfl
      have hgl2 : ((g :: ([] : List (ℕ × String))).getLast
        (by simp)) = g := rfl
      refine ⟨?_, ?_, ?_, ?_⟩
      · intro n
        rw [hih1 n, hp1' n, hgl, hgl2]
        exact merge_last _ _ _ _ _ (by simp) (by simp)
      · intro n
        rw [hih2 n, hp2' n, hgl, hgl2]
        exact merge_last _ _ _ _ _ (by simp) (by simp)
      · intro hnd
        exact hih3 (hp3 hnd)
      · intro hnd
        exact hih4 (hp4 hnd)
    | cons h2 rest'' =>
      have hgle : g.1 ≤ (((g :: h2 :: rest'').getLast (by simp)).1) :=
        chain_head_le_getLast _ _ hchain'
      have hgl : ((f :: g :: h2 :: rest'').getLast (by simp)) =
        ((g :: h2 :: rest'').getLast (by simp)) := rfl
      refine ⟨?_, ?_, ?_, ?_⟩
      · intro n
        rw [hih1 n, hp1' n, hgl]
        exact merge_interval _ _ _ (by simp) (by simp) _ _ _ _
          (le_of_lt hfg) hgle
      · intro n
        rw [hih2 n, hp2' n, hgl]
        exact merge_interval _ _ _ (by simp) (by simp) _ _ _ _
          (le_of_lt hfg) hgle
      · intro hnd
        exact hih3 (hp3 hnd)
      · intro hnd
        exact hih4 (hp4 hnd)

/-- A dict with nodup keys whose key set is the interval `[a, b]` has
exactly `b + 1 - a` entries. -/
theorem dict_length_of_interval {V : Type} (d : List (ℕ × V)) (a b : ℕ)
    (hnd : (dictKeys d).Nodup)
    (hiff : ∀ n, (dictGet d n).isSome ↔ a ≤ n ∧ n ≤ b) :
    d.length = b + 1 - a := by
  have h1 : d.length = (dictKeys d).length := by simp [dictKeys]
  rw [h1, ← List.toFinset_card_of_nodup hnd]
  have h2 : (dictKeys d).toFinset = Finset.Icc a b := by
    ext n
    rw [List.mem_toFinset, mem_dictKeys_iff_isSome, Finset.mem_Icc]
    exact hiff n
  rw [h2, Nat.card_Icc]

/-- C1 (amended and proved).  For every sorted keyframe sequence with at
least two keyframes, the timeline built by the latent/embedding timeline
builder — `BYOPFlow.get_init_latents` (first conjunct, whenever it returns
a timeline) and `GiffusionFlow.get_init_latents_and_text_embeddings`
(second conjunct, both its latent and its embedding timeline) — contains
exactly one entry for every integer frame index in
`[first_keyframe_frame, max_frames - 1]`, and its length is
`max_frames - first_keyframe_frame`.  A single-keyframe sequence instead
yields an empty timeline (see the counterexample). -/
theorem C1_amended_timeline :
    (∀ (V : Type) (randn : ℕ → V) (slerpV : ℚ → V → V → V)
      (onsetStrength : List ℚ → List ℚ) (fps : ℕ)
      (audio_array : Option (List ℚ)) (sr seed : ℕ) (seed_schedule : ℕ → ℕ)
      (use_fixed_latent : Bool) (key_frames : List (ℕ × String))
      (f0 fl : ℕ × String) (timeline : List (ℕ × V)),
      List.Chain' (fun a b => a.1 < b.1) key_frames →
      2 ≤ key_frames.length →
      key_frames.head? = some f0 →
      key_frames.getLast? = some fl →
      get_init_latents randn slerpV onsetStrength fps audio_array sr seed
        seed_schedule use_fixed_latent key_frames = .ok timeline →
      ((∀ n, (dictGet timeline n).isSome ↔ f0.1 ≤ n ∧ n ≤ fl.1) ∧
        (dictKeys timeline).Nodup ∧
        timeline.length = max_frames key_frames - f0.1)) ∧
    (∀ (V E : Type) (randn : ℕ → V) (slerpV : ℚ → V → V → V)
      (prompt_to_embedding : String → E) (pad_embedding : E → E → E × E)
      (slerpE : ℚ → E → E → E) (seed : ℕ) (seed_schedule : ℕ → ℕ)
      (use_fixed_latent : Bool) (key_frames : List (ℕ × String))
      (f0 fl : ℕ × String),
      List.Chain' (fun a b => a.1 < b.1) key_frames →
      2 ≤ key_frames.length →
      key_frames.head? = some f0 →
      key_frames.getLast? = some fl →
      ((∀ n, (dictGet (get_init_latents_and_text_embeddings randn slerpV
          prompt_to_embedding pad_embedding slerpE seed seed_schedule
          use_fixed_latent key_frames).1 n).isSome ↔
            f0.1 ≤ n ∧ n ≤ fl.1) ∧
        (∀ n, (dictGet (get_init_latents_and_text_embeddings randn slerpV
          prompt_to_embedding pad_embedding slerpE seed seed_schedule
          use_fixed_latent key_frames).2 n).isSome ↔
            f0.1 ≤ n ∧ n ≤ fl.1) ∧
        (dictKeys (get_init_latents_and_text_embeddings randn slerpV
          prompt_to_embedding pad_embedding slerpE seed seed_schedule
          use_fixed_latent key_frames).1).Nodup ∧
        (dictKeys (get_init_latents_and_text_embeddings randn slerpV
          prompt_to_embedding pad_embedding slerpE seed seed_schedule
          use_fixed_latent key_frames).2).Nodup ∧
        (get_init_latents_and_text_embeddings randn slerpV
          prompt_to_embedding pad_embedding slerpE seed seed_schedule
          use_fixed_latent key_frames).1.length =
            max_frames key_frames - f0.1 ∧
        (get_init_latents_and_text_embeddings randn slerpV
          prompt_to_embedding pad_embedding slerpE seed seed_schedule
          use_fixed_latent key_frames).2.length =
            max_frames key_frames - f0.1)) := by
  constructor
  · intro V randn slerpV onsetStrength fps audio_array sr seed seed_schedule
      use_fixed_latent key_frames f0 fl timeline hchain hlen2 hhead hlast h
    cases key_frames with
    | nil => simp at hhead
    | cons f rest =>
      have hf : f = f0 := by
        simp only [List.head?_cons, Option.some.injEq] at hhead
        exact hhead
      subst hf
      have hrest : rest ≠ [] := by
        intro hr
        rw [hr] at hlen2
        simp at hlen2
      have hfl : fl = ((f :: rest).getLast (by simp)) := by
        have h3 := List.getLast?_eq_getLast (f :: rest) (by simp)
        rw [hlast] at h3
        exact Option.some.inj h3
      simp only [get_init_latents] at h
      rw [List.tail_cons] at h
      cases hfold : (List.foldlM (byopLatentStep randn slerpV onsetStrength
          fps audio_array sr seed_schedule use_fixed_latent)
          (randn seed, ([] : List (ℕ × V)))
          ((f :: rest).zip rest)) with
      | error e =>
        rw [hfold] at h
        exact absurd h (by simp [Bind.bind, Except.bind])
      | ok st =>
        rw [hfold] at h
        simp only [Bind.bind, Except.bind, pure, Except.pure,
          Except.ok.injEq] at h
        obtain ⟨hiff, hnd⟩ := byop_fold_inv randn slerpV onsetStrength fps
          audio_array sr seed_schedule use_fixed_latent rest f
          (randn seed, ([] : List (ℕ × V))) st hchain hfold
        have hiff' : ∀ n, (dictGet timeline n).isSome ↔
            f.1 ≤ n ∧ n ≤ fl.1 := by
          intro n
          rw [← h, hiff n, hfl]
          simp [dictGet_nil, hrest]
        have hnd' : (dictKeys timeline).Nodup := by
          rw [← h]
          exact hnd (by simp [dictKeys])
        refine ⟨hiff', hnd', ?_⟩
        rw [dict_length_of_interval timeline f.1 fl.1 hnd' hiff',
          max_frames_of_sorted rest f hchain, hfl]
  · intro V E randn slerpV prompt_to_embedding pad_embedding slerpE seed
      seed_schedule use_fixed_latent key_frames f0 fl hchain hlen2 hhead hlast
    cases key_frames with
    | nil => simp at hhead
    | cons f rest =>
      have hf : f = f0 := by
        simp only [List.head?_cons, Option.some.injEq] at hhead
        exact hhead
      subst hf
      have hrest : rest ≠ [] := by
        intro hr
        rw [hr] at hlen2
        simp at hlen2
      have hfl : fl = ((f :: rest).getLast (by simp)) := by
        have h3 := List.getLast?_eq_getLast (f :: rest) (by simp)
        rw [hlast] at h3
        exact Option.some.inj h3
      obtain ⟨hiff1, hiff2, hnd1, hnd2⟩ := giffusion_fold_inv randn slerpV
        prompt_to_embedding pad_embedding slerpE seed_schedule
        use_fixed_latent rest f
        (randn seed, ([] : List (ℕ × V)), ([] : List (ℕ × E))) hchain
      have he1 : (get_init_latents_and_text_embeddings randn slerpV
          prompt_to_embedding pad_embedding slerpE seed seed_schedule
          use_fixed_latent (f :: rest)).1 =
          (((f :: rest).zip rest).foldl
            (giffusionPairStep randn slerpV prompt_to_embedding
              pad_embedding slerpE seed_schedule use_fixed_latent)
            (randn seed, ([] : List (ℕ × V)), ([] : List (ℕ × E)))).2.1 := rfl
      have he2 : (get_init_latents_and_text_embeddings randn slerpV
          prompt_to_embedding pad_embedding slerpE seed seed_schedule
          use_fixed_latent (f :: rest)).2 =
          (((f :: rest).zip rest).foldl
            (giffusionPairStep randn slerpV prompt_to_embedding
              pad_embedding slerpE seed_schedule use_fixed_latent)
            (randn seed, ([] : List (ℕ × V)), ([] : List (ℕ × E)))).2.2 := rfl
      have hiff1' : ∀ n, (dictGet (get_init_latents_and_text_embeddings
          randn slerpV prompt_to_embedding pad_embedding slerpE seed
          seed_schedule use_fixed_latent (f :: rest)).1 n).isSome ↔
          f.1 ≤ n ∧ n ≤ fl.1 := by
        intro n
        rw [he1, hiff1 n, hfl]
        simp [dictGet_nil, hrest]
      have hiff2' : ∀ n, (dictGet (get_init_latents_and_text_embeddings
          randn slerpV prompt_to_embedding pad_embedding slerpE seed
          seed_schedule use_fixed_latent (f :: rest)).2 n).isSome ↔
          f.1 ≤ n ∧ n ≤ fl.1 := by
        intro n
        rw [he2, hiff2 n, hfl]
        simp [dictGet_nil, hrest]
      have hnd1' : (dictKeys (get_init_latents_and_text_embeddings randn
          slerpV prompt_to_embedding pad_embedding slerpE seed seed_schedule
          use_fixed_latent (f :: rest)).1).Nodup := by
        rw [he1]
        exact hnd1 (by simp [dictKeys])
      have hnd2' : (dictKeys (get_init_latents_and_text_embeddings randn
          slerpV prompt_to_embedding pad_embedding slerpE seed seed_schedule
          use_fixed_latent (f :: rest)).2).Nodup := by
        rw [he2]
        exact hnd2 (by simp [dictKeys])
      refine ⟨hiff1', hiff2', hnd1', hnd2', ?_, ?_⟩
      · rw [dict_length_of_interval _ f.1 fl.1 hnd1' hiff1',
          max_frames_of_sorted rest f hchain, hfl]
      · rw [dict_length_of_interval _ f.1 fl.1 hnd2' hiff2',
          max_frames_of_sorted rest f hchain, hfl]

/-- C1 witness: the byop timeline for the keyframes `{0: "A", 2: "B"}`
(evaluated with an executable latent model) has an entry for frame 1,
distinct keys, and length `max_frames - 0 = 3`. -/
theorem C1_amended_timeline_witness :
    ((dictGet ([(0, 42), (1, 42), (2, 42)] : List (ℕ × ℕ)) 1).isSome ↔
      (0 : ℕ) ≤ 1 ∧ 1 ≤ 2) ∧
    (dictKeys ([(0, 42), (1, 42), (2, 42)] : List (ℕ × ℕ))).Nodup ∧
    ([(0, 42), (1, 42), (2, 42)] : List (ℕ × ℕ)).length =
      max_frames [(0, "A"), (2, "B")] - 0 := by
  have h := C1_amended_timeline.1 ℕ (fun s => s)
    (fun _ a _ => a) (fun xs => xs) 10 none 10 42
    (fun i => 100 + i) false [(0, "A"), (2, "B")] (0, "A") (2, "B")
    [(0, 42), (1, 42), (2, 42)]
    (List.chain'_cons.mpr ⟨by decide, List.chain'_singleton _⟩)
    (by decide) rfl rfl (by rfl)
  exact ⟨h.1 1, h.2.1, h.2.2⟩

end Timeline

/-! ## C5: degenerate pairs and the audio branch -/

section Degenerate

/-- With no audio source, a degenerate pair yields the single-element
schedule `[0]`. -/
theorem sched_degenerate_uniform (onsetStrength : List ℚ → List ℚ)
    (s fps sr : ℕ) :
    get_interpolation_schedule onsetStrength s s fps none sr = .ok [0] := by
  simp only [get_interpolation_schedule]
  rw [Nat.sub_self]
  rfl

/-- With an audio source configured, even a degenerate pair takes the
audio branch: the slice `audio[start_sample:start_sample]` is empty, so
(with the external onset extractor returning an empty curve on empty
input) `schedule_y[-1]` indexes an empty array and the call fails. -/
theorem sched_degenerate_audio_error (onsetStrength : List ℚ → List ℚ)
    (s fps sr : ℕ) (arr : List ℚ) (h : onsetStrength [] = []) :
    get_interpolation_schedule onsetStrength s s fps (some arr) sr =
      .error .emptyOnsetCurve := by
  simp only [get_interpolation_schedule, get_interpolation_schedule_from_audio,
    audioSlice]
  rw [Nat.sub_self, List.take_zero, h]
  rfl

/-- C5 counterexample.  The claim says a degenerate pair
(`start_frame == end_frame`) yields `[0]` with *no audio slicing
attempted even when an audio source is configured*; but
`get_interpolation_schedule` tests the audio source first, so with audio
configured the degenerate pair goes down the audio path and errors on the
empty slice instead of returning `[0]`. -/
theorem C5_counterexample_audio_branch_taken :
    get_interpolation_schedule (fun xs => xs) 3 3 10 (some [1, 2, 3, 4, 5]) 10
      = .error .emptyOnsetCurve ∧
    (Except.error .emptyOnsetCurve : Except ScheduleError (List ℚ)) ≠
      .ok [0] :=
  ⟨sched_degenerate_audio_error (fun xs => xs) 3 10 10 [1, 2, 3, 4, 5] rfl,
    fun h => Except.noConfusion h⟩

/-- C5 (amended and proved).  A degenerate pair yields `[0]` and attempts
no audio slicing only when no audio source is configured (first
conjunct).  When an audio source is configured, the audio branch is taken
even for a degenerate pair; the selected slice is then empty and the
scheduler fails — with an ordinary indexing error on the empty cumulative
onset curve, not with an `InsufficientAudioError`, which does not exist in
the code (second conjunct; the hypothesis records that the external onset
extractor yields an empty curve on an empty slice). -/
theorem C5_amended_degenerate_pair :
    (∀ (onsetStrength : List ℚ → List ℚ) (s fps sr : ℕ),
      get_interpolation_schedule onsetStrength s s fps none sr = .ok [0]) ∧
    (∀ (onsetStrength : List ℚ → List ℚ) (s fps sr : ℕ) (arr : List ℚ),
      onsetStrength [] = [] →
      get_interpolation_schedule onsetStrength s s fps (some arr) sr =
        .error .emptyOnsetCurve) :=
  ⟨fun onsetStrength s fps sr =>
    sched_degenerate_uniform onsetStrength s fps sr,
   fun onsetStrength s fps sr arr h =>
    sched_degenerate_audio_error onsetStrength s fps sr arr h⟩

/-- C5 witness: concrete instances of both conjuncts of the amended
claim, with the onset extractor instantiated by an executable function. -/
theorem C5_amended_degenerate_pair_witness :
    get_interpolation_schedule (fun xs => xs) 3 3 10 none 10 = .ok [0] ∧
    get_interpolation_schedule (fun xs => xs) 3 3 10 (some [1, 2]) 10 =
      .error .emptyOnsetCurve :=
  ⟨C5_amended_degenerate_pair.1 (fun xs => xs) 3 10 10,
    C5_amended_degenerate_pair.2 (fun xs => xs) 3 10 10 [1, 2] rfl⟩

end Degenerate

/-! ## C2: interpolation fraction sequences -/

section Fractions

theorem rat_chain_le_getLast :
    ∀ (l : List ℚ) (y : ℚ), List.Chain' (fun a b => a ≤ b) (y :: l) →
      y ≤ ((y :: l).getLast (by simp)) := by
  intro l
  induction l with
  | nil => intro y _; simp [List.getLast]
  | cons z l' ih =>
    intro y hchain
    rw [List.getLast_cons (by simp)]
    have h1 : y ≤ z := (List.chain'_cons.mp hchain).1
    have h2 := ih z (List.chain'_cons.mp hchain).2
    linarith

theorem linspace_head (a b : ℚ) (n : ℕ) (h : 2 ≤ n) :
    (linspace a b n).head? = some a := by
  obtain ⟨m, rfl⟩ : ∃ m, n = m + 2 := ⟨n - 2, by omega⟩
  unfold linspace
  rw [if_neg (by omega), if_neg (by omega)]
  rw [show List.range (m + 2) = 0 :: (List.range (m + 1)).map Nat.succ from
    List.range_succ_eq_map (m + 1)]
  simp

theorem linspace_getLast (a b : ℚ) (n : ℕ) (h : 2 ≤ n) :
    (linspace a b n).getLast? = some b := by
  obtain ⟨m, rfl⟩ : ∃ m, n = m + 1 := ⟨n - 1, by omega⟩
  unfold linspace
  rw [if_neg (by omega), if_neg (by omega)]
  rw [List.range_succ, List.map_append]
  simp only [List.map_cons, List.map_nil]
  rw [List.getLast?_concat]
  have hm : (1 : ℚ) ≤ (m : ℚ) := by
    have : (1 : ℕ) ≤ m := by omega
    exact_mod_cast this
  have hne : ((m : ℚ) + 1) - 1 ≠ 0 := by intro hc; linarith
  congr 1
  push_cast
  field_simp

theorem linspace_mem_bounds (a b : ℚ) (n : ℕ) (hab : a ≤ b) (v : ℚ)
    (hv : v ∈ linspace a b n) : a ≤ v ∧ v ≤ b := by
  unfold linspace at hv
  split at hv
  · simp at hv
  · split at hv
    · simp at hv
      subst hv
      exact ⟨le_refl _, hab⟩
    · rcases List.mem_map.mp hv with ⟨i, hi, rfl⟩
      rw [List.mem_range] at hi
      rename_i hn0 hn1
      have hn2 : 2 ≤ n := by omega
      have hd : (0 : ℚ) < (n : ℚ) - 1 := by
        have : (2 : ℚ) ≤ (n : ℚ) := by exact_mod_cast hn2
        linarith
      have hi' : (i : ℚ) ≤ (n : ℚ) - 1 := by
        have : (i : ℚ) ≤ (n : ℚ) - 1 ↔ (i : ℚ) + 1 ≤ (n : ℚ) := by
          constructor <;> intro <;> linarith
        rw [this]
        exact_mod_cast hi
      constructor
      · have : 0 ≤ (b - a) * (i : ℚ) / ((n : ℚ) - 1) := by
          apply div_nonneg
          · apply mul_nonneg (by linarith) (by positivity)
          · linarith
        linarith
      · have h1 : (b - a) * (i : ℚ) / ((n : ℚ) - 1) ≤ (b - a) := by
          rw [div_le_iff₀ hd]
          have h2 : (0 : ℚ) ≤ b - a := by linarith
          nlinarith
        linarith

theorem linspace_chain_le (a b : ℚ) (n : ℕ) (hab : a ≤ b) :
    (linspace a b n).Chain' (fun x y => x ≤ y) := by
  unfold linspace
  split
  · exact List.chain'_nil
  · split
    · exact List.chain'_singleton a
    · rename_i hn0 hn1
      rw [List.chain'_map]
      obtain ⟨m, rfl⟩ : ∃ m, n = m + 1 := ⟨n - 1, by omega⟩
      rw [show (m + 1 : ℕ) = Nat.succ m from rfl, List.chain'_range_succ]
      intro k hk
      have hm1 : (1 : ℚ) ≤ (m : ℚ) := by
        have : (1 : ℕ) ≤ m := by omega
        exact_mod_cast this
      have hd : (0 : ℚ) < ((m : ℚ) + 1) - 1 := by linarith
      have hba : (0 : ℚ) ≤ b - a := by linarith
      push_cast
      have hnum : (b - a) * (k : ℚ) ≤ (b - a) * ((k : ℚ) + 1) := by nlinarith
      have hterm : (b - a) * (k : ℚ) / ((m : ℚ) + 1 - 1) ≤
          (b - a) * ((k : ℚ) + 1) / ((m : ℚ) + 1 - 1) :=
        (div_le_div_iff_of_pos_right (by linarith)).mpr hnum
      linarith [hterm]

theorem linspace_chain_lt (a b : ℚ) (n : ℕ) (hab : a < b) :
    (linspace a b n).Chain' (fun x y => x < y) := by
  unfold linspace
  split
  · exact List.chain'_nil
  · split
    · exact List.chain'_singleton a
    · rename_i hn0 hn1
      rw [List.chain'_map]
      obtain ⟨m, rfl⟩ : ∃ m, n = m + 1 := ⟨n - 1, by omega⟩
      rw [show (m + 1 : ℕ) = Nat.succ m from rfl, List.chain'_range_succ]
      intro k hk
      have hm1 : (1 : ℚ) ≤ (m : ℚ) := by
        have : (1 : ℕ) ≤ m := by omega
        exact_mod_cast this
      have hd : (0 : ℚ) < ((m : ℚ) + 1) - 1 := by linarith
      have hba : (0 : ℚ) < b - a := by linarith
      push_cast
      have hnum : (b - a) * (k : ℚ) < (b - a) * ((k : ℚ) + 1) := by nlinarith
      have hterm : (b - a) * (k : ℚ) / ((m : ℚ) + 1 - 1) <
          (b - a) * ((k : ℚ) + 1) / ((m : ℚ) + 1 - 1) :=
        (div_lt_div_iff_of_pos_right (by linarith)).mpr hnum
      linarith [hterm]

/-- The value of the linear segment formula at `x ≤ x1` is at most `y1`. -/
theorem segment_le_right (x x0 x1 y0 y1 : ℚ) (hx01 : x0 < x1) (hy : y0 ≤ y1)
    (hx : x ≤ x1) : y0 + (y1 - y0) * (x - x0) / (x1 - x0) ≤ y1 := by
  have h1 : (y1 - y0) * (x - x0) ≤ (y1 - y0) * (x1 - x0) := by nlinarith
  have h2 := (div_le_div_iff_of_pos_right
    (show (0 : ℚ) < x1 - x0 by linarith)).mpr h1
  have hne : x1 - x0 ≠ 0 := sub_ne_zero.mpr (ne_of_gt hx01)
  have h3 : (y1 - y0) * (x1 - x0) / (x1 - x0) = y1 - y0 := by
    rw [mul_div_assoc, div_self hne, mul_one]
  rw [h3] at h2
  linarith

theorem npInterp_lb :
    ∀ (xs ys : List ℚ) (x0 y0 x : ℚ), xs.length = ys.length →
      List.Chain' (fun a b => a < b) (x0 :: xs) →
      List.Chain' (fun a b => a ≤ b) (y0 :: ys) →
      y0 ≤ npInterp x (x0 :: xs) (y0 :: ys) := by
  intro xs
  induction xs with
  | nil =>
    intro ys x0 y0 x hlen _ _
    match ys, hlen with
    | [], _ => rw [show npInterp x [x0] [y0] = y0 from rfl]
  | cons x1 xs' ih =>
    intro ys x0 y0 x hlen hcx hcy
    match ys, hlen with
    | y1 :: ys', hlen =>
      rw [show npInterp x (x0 :: x1 :: xs') (y0 :: y1 :: ys') =
        (if x ≤ x0 then y0
         else if x ≤ x1 then y0 + (y1 - y0) * (x - x0) / (x1 - x0)
         else npInterp x (x1 :: xs') (y1 :: ys')) from rfl]
      have hx01 : x0 < x1 := (List.chain'_cons.mp hcx).1
      have hy01 : y0 ≤ y1 := (List.chain'_cons.mp hcy).1
      split
      · exact le_refl y0
      · rename_i hx0
        push_neg at hx0
        split
        · have hterm : 0 ≤ (y1 - y0) * (x - x0) / (x1 - x0) := by
            apply div_nonneg
            · exact mul_nonneg (by linarith) (by linarith)
            · linarith
          linarith
        · have h2 := ih ys' x1 y1 x (by simpa using hlen)
            (List.chain'_cons.mp hcx).2 (List.chain'_cons.mp hcy).2
          linarith

theorem npInterp_ub :
    ∀ (xs ys : List ℚ) (x0 y0 x : ℚ), xs.length = ys.length →
      List.Chain' (fun a b => a < b) (x0 :: xs) →
      List.Chain' (fun a b => a ≤ b) (y0 :: ys) →
      npInterp x (x0 :: xs) (y0 :: ys) ≤ ((y0 :: ys).getLast (by simp)) := by
  intro xs
  induction xs with
  | nil =>
    intro ys x0 y0 x hlen _ _
    match ys, hlen with
    | [], _ =>
      rw [show npInterp x [x0] [y0] = y0 from rfl]
      simp [List.getLast]
  | cons x1 xs' ih =>
    intro ys x0 y0 x hlen hcx hcy
    match ys, hlen with
    | y1 :: ys', hlen =>
      rw [show npInterp x (x0 :: x1 :: xs') (y0 :: y1 :: ys') =
        (if x ≤ x0 then y0
         else if x ≤ x1 then y0 + (y1 - y0) * (x - x0) / (x1 - x0)
         else npInterp x (x1 :: xs') (y1 :: ys')) from rfl]
      rw [show ((y0 :: y1 :: ys').getLast (by simp)) =
        ((y1 :: ys').getLast (by simp)) from rfl]
      have hx01 : x0 < x1 := (List.chain'_cons.mp hcx).1
      have hy01 : y0 ≤ y1 := (List.chain'_cons.mp hcy).1
      have hy1l : y1 ≤ ((y1 :: ys').getLast (by simp)) :=
        rat_chain_le_getLast ys' y1 (List.chain'_cons.mp hcy).2
      split
      · linarith
      · rename_i hx0
        push_neg at hx0
        split
        · rename_i hx1
          have := segment_le_right x x0 x1 y0 y1 hx01 hy01 hx1
          linarith
        · exact ih ys' x1 y1 x (by simpa using hlen)
            (List.chain'_cons.mp hcx).2 (List.chain'_cons.mp hcy).2

theorem npInterp_mono :
    ∀ (xs ys : List ℚ) (x0 y0 x x' : ℚ), xs.length = ys.length →
      List.Chain' (fun a b => a < b) (x0 :: xs) →
      List.Chain' (fun a b => a ≤ b) (y0 :: ys) →
      x ≤ x' →
      npInterp x (x0 :: xs) (y0 :: ys) ≤ npInterp x' (x0 :: xs) (y0 :: ys) := by
  intro xs
  induction xs with
  | nil =>
    intro ys x0 y0 x x' hlen _ _ _
    match ys, hlen with
    | [], _ =>
      rw [show npInterp x [x0] [y0] = y0 from rfl,
        show npInterp x' [x0] [y0] = y0 from rfl]
  | cons x1 xs' ih =>
    intro ys x0 y0 x x' hlen hcx hcy hxx
    match ys, hlen with
    | y1 :: ys', hlen =>
      have hx01 : x0 < x1 := (List.chain'_cons.mp hcx).1
      have hy01 : y0 ≤ y1 := (List.chain'_cons.mp hcy).1
      have heqL : npInterp x (x0 :: x1 :: xs') (y0 :: y1 :: ys') =
        (if x ≤ x0 then y0
         else if x ≤ x1 then y0 + (y1 - y0) * (x - x0) / (x1 - x0)
         else npInterp x (x1 :: xs') (y1 :: ys')) := rfl
      have heqR : npInterp x' (x0 :: x1 :: xs') (y0 :: y1 :: ys') =
        (if x' ≤ x0 then y0
         else if x' ≤ x1 then y0 + (y1 - y0) * (x' - x0) / (x1 - x0)
         else npInterp x' (x1 :: xs') (y1 :: ys')) := rfl
      by_cases hx0 : x ≤ x0
      · rw [heqL, if_pos hx0]
        exact npInterp_lb (x1 :: xs') (y1 :: ys') x0 y0 x' hlen hcx hcy
      · by_cases hx1 : x ≤ x1
        · rw [heqL, if_neg hx0, if_pos hx1]
          push_neg at hx0
          by_cases hx1' : x' ≤ x1
          · have hx0' : ¬ x' ≤ x0 := by push_neg; linarith
            rw [heqR, if_neg hx0', if_pos hx1']
            have h1 : (y1 - y0) * (x - x0) ≤ (y1 - y0) * (x' - x0) := by
              nlinarith
            have h2 := (div_le_div_iff_of_pos_right
              (show (0 : ℚ) < x1 - x0 by linarith)).mpr h1
            linarith
          · have hx0' : ¬ x' ≤ x0 := by push_neg; linarith
            rw [heqR, if_neg hx0', if_neg hx1']
            have hseg := segment_le_right x x0 x1 y0 y1 hx01 hy01 hx1
            have hlb := npInterp_lb xs' ys' x1 y1 x' (by simpa using hlen)
              (List.chain'_cons.mp hcx).2 (List.chain'_cons.mp hcy).2
            linarith
        · have hx1m : x1 < x := not_le.mp hx1
          have hx1' : ¬ x' ≤ x1 := not_le.mpr (lt_of_lt_of_le hx1m hxx)
          have hx0' : ¬ x' ≤ x0 :=
            not_le.mpr (lt_trans hx01 (lt_of_lt_of_le hx1m hxx))
          rw [heqL, if_neg hx0, if_neg hx1, heqR, if_neg hx0', if_neg hx1']
          exact ih ys' x1 y1 x x' (by simpa using hlen)
            (List.chain'_cons.mp hcx).2 (List.chain'_cons.mp hcy).2 hxx

theorem npInterp_at_last :
    ∀ (xs ys : List ℚ) (x0 y0 x : ℚ), xs.length = ys.length →
      List.Chain' (fun a b => a < b) (x0 :: xs) →
      ((x0 :: xs).getLast (by simp)) ≤ x →
      npInterp x (x0 :: xs) (y0 :: ys) = ((y0 :: ys).getLast (by simp)) := by
  intro xs
  induction xs with
  | nil =>
    intro ys x0 y0 x hlen _ _
    match ys, hlen with
    | [], _ =>
      rw [show npInterp x [x0] [y0] = y0 from rfl]
      simp [List.getLast]
  | cons x1 xs' ih =>
    intro ys x0 y0 x hlen hcx hlast
    match ys, hlen with
    | y1 :: ys', hlen =>
      have hx01 : x0 < x1 := (List.chain'_cons.mp hcx).1
      have heqL : npInterp x (x0 :: x1 :: xs') (y0 :: y1 :: ys') =
        (if x ≤ x0 then y0
         else if x ≤ x1 then y0 + (y1 - y0) * (x - x0) / (x1 - x0)
         else npInterp x (x1 :: xs') (y1 :: ys')) := rfl
      rw [show ((y0 :: y1 :: ys').getLast (by simp)) =
        ((y1 :: ys').getLast (by simp)) from rfl]
      rw [show ((x0 :: x1 :: xs').getLast (by simp)) =
        ((x1 :: xs').getLast (by simp)) from rfl] at hlast
      have hx1last : x1 ≤ ((x1 :: xs').getLast (by simp)) :=
        rat_chain_le_getLast xs' x1
          (((List.chain'_cons.mp hcx).2).imp (fun a b h => le_of_lt h))
      rcases xs' with _ | ⟨x2, xs''⟩
      · rcases ys' with _ | ⟨y2, ys''⟩
        · have hlast' : x1 ≤ x := by
            simpa [List.getLast] using hlast
          have hx0 : ¬ x ≤ x0 := by push_neg; linarith
          rw [heqL, if_neg hx0]
          by_cases hx1 : x ≤ x1
          · have hxeq : x = x1 := le_antisymm hx1 hlast'
            subst hxeq
            rw [if_pos (le_refl x)]
            have hne : x - x0 ≠ 0 :=
              sub_ne_zero.mpr (ne_of_gt (not_le.mp hx0))
            rw [show (([y1] : List ℚ).getLast (by simp)) = y1 from rfl]
            rw [mul_div_assoc, div_self hne, mul_one]
            ring
          · rw [if_neg hx1]
            rfl
        · exact absurd hlen (by simp)
      · rcases ys' with _ | ⟨y2, ys''⟩
        · exact absurd hlen (by simp)
        · have hx12 : x1 < x2 :=
            (List.chain'_cons.mp (List.chain'_cons.mp hcx).2).1
          have hx2last : x2 ≤ ((x2 :: xs'').getLast (by simp)) :=
            rat_chain_le_getLast xs'' x2
              ((List.chain'_cons.mp ((List.chain'_cons.mp hcx).2)).2.imp
                (fun a b h => le_of_lt h))
          have hlast2 : ((x1 :: x2 :: xs'').getLast (by simp)) =
              ((x2 :: xs'').getLast (by simp)) := rfl
          rw [hlast2] at hlast
          have hx1lt : x1 < x := by linarith
          have hx0 : ¬ x ≤ x0 := by push_neg; linarith
          have hx1 : ¬ x ≤ x1 := by push_neg; linarith
          rw [heqL, if_neg hx0, if_neg hx1]
          rw [show ((y1 :: y2 :: ys'').getLast (by simp)) =
            ((y2 :: ys'').getLast (by simp)) from rfl]
          have := ih (y2 :: ys'') x1 y1 x (by simpa using hlen)
            (List.chain'_cons.mp hcx).2 (by rw [hlast2]; exact hlast)
          rw [show ((y1 :: y2 :: ys'').getLast (by simp)) =
            ((y2 :: ys'').getLast (by simp)) from rfl] at this
          exact this

theorem cumsumFrom_length (l : List ℚ) : ∀ acc, (cumsumFrom acc l).length = l.length := by
  induction l with
  | nil => intro acc; rfl
  | cons x xs ih =>
    intro acc
    rw [show cumsumFrom acc (x :: xs) =
      (acc + x) :: cumsumFrom (acc + x) xs from rfl]
    simp [ih]

theorem cumsumFrom_cons_chain :
    ∀ (l : List ℚ), (∀ v ∈ l, 0 ≤ v) → ∀ acc,
      List.Chain' (fun a b => a ≤ b) (acc :: cumsumFrom acc l) := by
  intro l
  induction l with
  | nil => intro _ acc; exact List.chain'_singleton acc
  | cons x xs ih =>
    intro h acc
    rw [show cumsumFrom acc (x :: xs) =
      (acc + x) :: cumsumFrom (acc + x) xs from rfl]
    refine List.chain'_cons.mpr ⟨?_, ?_⟩
    · have := h x (List.mem_cons_self x xs)
      linarith
    · exact ih (fun v hv => h v (List.mem_cons_of_mem _ hv)) (acc + x)

theorem cumsumFrom_getLast? :
    ∀ (l : List ℚ), l ≠ [] → ∀ acc,
      (cumsumFrom acc l).getLast? = some (acc + l.sum) := by
  intro l
  induction l with
  | nil => intro h; exact absurd rfl h
  | cons x xs ih =>
    intro _ acc
    rw [show cumsumFrom acc (x :: xs) =
      (acc + x) :: cumsumFrom (acc + x) xs from rfl]
    by_cases hxs : xs = []
    · subst hxs
      simp [cumsumFrom]
    · rcases hx : cumsumFrom (acc + x) xs with _ | ⟨c, cs⟩
      · have hlen := cumsumFrom_length xs (acc + x)
        rw [hx] at hlen
        exact absurd (List.length_eq_zero.mp hlen.symm) hxs
      · have hgl := ih hxs (acc + x)
        rw [hx] at hgl
        rw [List.getLast?_cons_cons, hgl, List.sum_cons]
        have : acc + x + xs.sum = acc + (x + xs.sum) := by ring
        rw [this]

theorem cumsumFrom_mem_bounds :
    ∀ (l : List ℚ), (∀ x ∈ l, 0 ≤ x) → ∀ acc v, v ∈ cumsumFrom acc l →
      acc ≤ v ∧ v ≤ acc + l.sum := by
  intro l
  induction l with
  | nil => intro _ acc v hv; exact absurd hv (by simp [cumsumFrom])
  | cons x xs ih =>
    intro h acc v hv
    have hx : 0 ≤ x := h x (List.mem_cons_self x xs)
    have hsum : 0 ≤ xs.sum :=
      List.sum_nonneg (fun y hy => h y (List.mem_cons_of_mem _ hy))
    rw [show cumsumFrom acc (x :: xs) =
      (acc + x) :: cumsumFrom (acc + x) xs from rfl] at hv
    rw [List.sum_cons]
    rcases List.mem_cons.mp hv with rfl | hv'
    · constructor <;> linarith
    · have := ih (fun y hy => h y (List.mem_cons_of_mem _ hy)) (acc + x) v hv'
      constructor <;> linarith [this.1, this.2]

theorem maxAbs_nonneg (l : List ℚ) :
    0 ≤ (l.map (fun v => |v|)).foldr max 0 := by
  induction l with
  | nil => simp
  | cons x xs ih =>
    simp only [List.map_cons, List.foldr_cons]
    exact le_trans ih (le_max_right _ _)

theorem libNormalize_length (l : List ℚ) : (libNormalize l).length = l.length := by
  simp only [libNormalize]
  split
  · rfl
  · simp

theorem libNormalize_nonneg (l : List ℚ) (h : ∀ v ∈ l, 0 ≤ v) :
    ∀ v ∈ libNormalize l, 0 ≤ v := by
  intro v hv
  simp only [libNormalize] at hv
  split at hv
  · exact h v hv
  · rcases List.mem_map.mp hv with ⟨w, hw, rfl⟩
    exact div_nonneg (h w hw) (maxAbs_nonneg l)

theorem libNormalize_memPos (l : List ℚ) (hpos : ∃ v ∈ l, 0 < v) :
    ∃ v ∈ libNormalize l, 0 < v := by
  simp only [libNormalize]
  split
  · exact hpos
  · rename_i hm
    obtain ⟨w, hw, hwpos⟩ := hpos
    exact ⟨w / _, List.mem_map.mpr ⟨w, hw, rfl⟩,
      div_pos hwpos (lt_of_le_of_ne (maxAbs_nonneg l) (Ne.symm hm))⟩

theorem list_getLast?_map (f : ℚ → ℚ) :
    ∀ (l : List ℚ), (l.map f).getLast? = l.getLast?.map f := by
  intro l
  induction l with
  | nil => rfl
  | cons x xs ih =>
    cases xs with
    | nil => rfl
    | cons y ys =>
      simp only [List.map_cons] at ih ⊢
      rw [List.getLast?_cons_cons, List.getLast?_cons_cons]
      exact ih

/-- Reduction of the audio scheduler once the cumulative onset curve is known
to be nonempty with final value `total`. -/
theorem audio_schedule_eq (onsetStrength : List ℚ → List ℚ)
    (s e fps : ℕ) (arr : List ℚ) (sr : ℕ) (total : ℚ)
    (h : (cumsum (libNormalize (onsetStrength (audioSlice s e fps arr sr)))).getLast?
      = some total) :
    get_interpolation_schedule_from_audio onsetStrength s e fps arr sr =
      .ok ((linspace 0
          ((((cumsum (libNormalize (onsetStrength (audioSlice s e fps arr sr)))).map
            (fun v => v / total)).length : ℚ)) ((e - s) + 1)).map
        (fun x => npInterp x
          (linspace 0
            (((libNormalize (onsetStrength (audioSlice s e fps arr sr))).length : ℚ))
            ((libNormalize (onsetStrength (audioSlice s e fps arr sr))).length))
          ((cumsum (libNormalize (onsetStrength (audioSlice s e fps arr sr)))).map
            (fun v => v / total)))) := by
  simp only [get_interpolation_schedule_from_audio]
  rw [h]

/-- The audio-reactive schedule for a nondegenerate pair with nonnegative and
somewhere-positive onset strengths: right length, values in `[0, 1]`,
non-decreasing, final value `1`. -/
theorem audio_schedule_props (onsetStrength : List ℚ → List ℚ)
    (s e fps sr : ℕ) (arr : List ℚ) (hse : s < e)
    (hnn : ∀ v ∈ onsetStrength (audioSlice s e fps arr sr), 0 ≤ v)
    (hex : ∃ v ∈ onsetStrength (audioSlice s e fps arr sr), 0 < v) :
    ∃ l, get_interpolation_schedule_from_audio onsetStrength s e fps arr sr
        = .ok l ∧
      l.length = (e - s) + 1 ∧
      (∀ v ∈ l, 0 ≤ v ∧ v ≤ 1) ∧
      List.Chain' (fun a b => a ≤ b) l ∧
      l.getLast? = some 1 := by
  have henn := libNormalize_nonneg _ hnn
  obtain ⟨v0, hv0m, hv0p⟩ := libNormalize_memPos _ hex
  have henv_ne : libNormalize (onsetStrength (audioSlice s e fps arr sr)) ≠ [] :=
    List.ne_nil_of_mem hv0m
  have htot : 0 < (libNormalize (onsetStrength (audioSlice s e fps arr sr))).sum :=
    lt_of_lt_of_le hv0p (List.single_le_sum henn v0 hv0m)
  have hcl : (cumsum (libNormalize (onsetStrength
      (audioSlice s e fps arr sr)))).getLast? =
      some (libNormalize (onsetStrength (audioSlice s e fps arr sr))).sum := by
    rw [show cumsum (libNormalize (onsetStrength (audioSlice s e fps arr sr))) =
      cumsumFrom 0 (libNormalize (onsetStrength (audioSlice s e fps arr sr)))
      from rfl]
    rw [cumsumFrom_getLast? _ henv_ne 0, zero_add]
  have hred := audio_schedule_eq onsetStrength s e fps arr sr _ hcl
  set env := libNormalize (onsetStrength (audioSlice s e fps arr sr)) with henv
  have hYlen : ((cumsum env).map (fun v => v / env.sum)).length = env.length := by
    rw [List.length_map, show cumsum env = cumsumFrom 0 env from rfl,
      cumsumFrom_length env 0]
  rw [hYlen] at hred
  have hL1 : 1 ≤ env.length := List.length_pos.mpr henv_ne
  have hLQ0 : (0 : ℚ) < (env.length : ℚ) := by exact_mod_cast hL1
  obtain ⟨x0, xs, hX⟩ : ∃ x0 xs,
      linspace 0 ((env.length : ℚ)) env.length = x0 :: xs := by
    rcases hc : linspace 0 ((env.length : ℚ)) env.length with _ | ⟨a, l⟩
    · exfalso
      have hll := linspace_length 0 ((env.length : ℚ)) env.length
      rw [hc] at hll
      simp at hll
      omega
    · exact ⟨a, l, rfl⟩
  obtain ⟨y0, ys, hY⟩ : ∃ y0 ys,
      (cumsum env).map (fun v => v / env.sum) = y0 :: ys := by
    rcases hc : (cumsum env).map (fun v => v / env.sum) with _ | ⟨a, l⟩
    · exfalso
      rw [hc] at hYlen
      simp at hYlen
      omega
    · exact ⟨a, l, rfl⟩
  have hlen_xy : xs.length = ys.length := by
    have h1 := linspace_length 0 ((env.length : ℚ)) env.length
    rw [hX] at h1
    have h2 := hYlen
    rw [hY] at h2
    simp at h1 h2
    omega
  have hcx : List.Chain' (fun a b => a < b) (x0 :: xs) := by
    rw [← hX]
    exact linspace_chain_lt 0 _ _ hLQ0
  have hYmem : ∀ v ∈ y0 :: ys, 0 ≤ v ∧ v ≤ 1 := by
    intro v hv
    rw [← hY] at hv
    rcases List.mem_map.mp hv with ⟨w, hw, rfl⟩
    have hb := cumsumFrom_mem_bounds env henn 0 w hw
    constructor
    · exact div_nonneg hb.1 (le_of_lt htot)
    · exact (div_le_one htot).mpr (by linarith [hb.2])
  have hcy : List.Chain' (fun a b => a ≤ b) (y0 :: ys) := by
    rw [← hY]
    refine (List.chain'_map _).mpr ?_
    have hch : List.Chain' (fun a b => a ≤ b) (cumsum env) :=
      (cumsumFrom_cons_chain env henn 0).tail
    exact hch.imp (fun a b hab => (div_le_div_iff_of_pos_right htot).mpr hab)
  have hYlast : ((y0 :: ys).getLast (by simp)) = 1 := by
    have hm := list_getLast?_map (fun v => v / env.sum) (cumsum env)
    rw [hcl, hY] at hm
    rw [List.getLast?_eq_getLast _ (by simp)] at hm
    have hself : env.sum / env.sum = 1 := div_self (ne_of_gt htot)
    injection hm with hm
    rw [hm]
    exact hself
  have hx_last_le : ∀ g : ℚ, (x0 :: xs).getLast? = some g →
      g ≤ (env.length : ℚ) := by
    intro g hg
    have hm : g ∈ x0 :: xs := List.mem_of_mem_getLast? (by rw [hg]; rfl)
    rw [← hX] at hm
    exact (linspace_mem_bounds 0 _ env.length (le_of_lt hLQ0) _ hm).2
  have hy0 : 0 ≤ y0 := (hYmem y0 (List.mem_cons_self y0 ys)).1
  refine ⟨_, hred, ?_, ?_, ?_, ?_⟩
  · rw [List.length_map, linspace_length]
  · intro v hv
    rcases List.mem_map.mp hv with ⟨x, hx, rfl⟩
    rw [hX, hY]
    constructor
    · have := npInterp_lb xs ys x0 y0 x hlen_xy hcx hcy
      linarith
    · have := npInterp_ub xs ys x0 y0 x hlen_xy hcx hcy
      rw [hYlast] at this
      exact this
  · rw [hX, hY]
    refine (List.chain'_map _).mpr ?_
    exact (linspace_chain_le 0 _ _ (le_of_lt hLQ0)).imp
      (fun a b hab => npInterp_mono xs ys x0 y0 a b hlen_xy hcx hcy hab)
  · rw [hX, hY, list_getLast?_map,
      linspace_getLast 0 _ ((e - s) + 1) (by omega)]
    have hal := npInterp_at_last xs ys x0 y0 ((env.length : ℚ)) hlen_xy hcx
      (hx_last_le _ (List.getLast?_eq_getLast _ (by simp)))
    rw [Option.map_some']
    rw [hal, hYlast]

/-- C2 counterexample.  The claim asserts that for every pair with
`start_frame <= end_frame`, both modes produce a schedule whose first
value is `0` and whose last value is `1`.  Two closed refutations: the
degenerate uniform pair `(0, 0)` yields `np.linspace(0, 1, 1) = [0]`,
whose last value is `0`, not `1`; and the audio pair `(0, 1)` with onset
curve `[1, 0]` yields `[1, 1]`, whose first value is `1`, not `0` (the
resampled grid starts at `0`, where `np.interp` clamps to the first
normalized cumulative onset, not to `0`). -/
theorem C2_counterexample_endpoints :
    (get_interpolation_schedule (fun l => l) 0 0 10 none 10 = .ok [0] ∧
      ¬ (([0] : List ℚ).getLast? = some 1)) ∧
    (get_interpolation_schedule (fun _ => [1, 0]) 0 1 1 (some [1]) 1
        = .ok [1, 1] ∧
      ¬ (([1, 1] : List ℚ).head? = some 0)) := by
  refine ⟨⟨sched_degenerate_uniform _ 0 10 10, by decide⟩, ⟨?_, by decide⟩⟩
  show get_interpolation_schedule_from_audio (fun _ => [1, 0]) 0 1 1 [1] 1
    = .ok [1, 1]
  simp [get_interpolation_schedule_from_audio, audioSlice, libNormalize,
    cumsum, cumsumFrom, linspace, List.range_succ, npInterp, List.getLast?]

/-- C2 (amended and proved).  For an adjacent keyframe pair `(s, e)`: in
uniform mode with `s < e` the schedule is `np.linspace(0, 1, e - s + 1)`:
length `e - s + 1`, every value in `[0, 1]`, non-decreasing, first value
`0`, last value `1` — exactly as claimed.  In uniform mode with `s = e`
the schedule is `[0]`: its last value is `0`, not `1`.  In audio-reactive
mode with `s < e`, provided the external onset strengths are nonnegative
and somewhere positive (so the cumulative total is nonzero and the
division does not produce `NaN`), the schedule has length `e - s + 1`,
every value in `[0, 1]`, is non-decreasing and ends at `1`, but its first
value is the first normalized cumulative onset, which need not be `0`. -/
theorem C2_amended_fraction_sequences (onsetStrength : List ℚ → List ℚ)
    (s e fps sr : ℕ) :
    (s < e →
      ∃ l, get_interpolation_schedule onsetStrength s e fps none sr = .ok l ∧
        l.length = (e - s) + 1 ∧
        (∀ v ∈ l, 0 ≤ v ∧ v ≤ 1) ∧
        List.Chain' (fun a b => a ≤ b) l ∧
        l.head? = some 0 ∧ l.getLast? = some 1) ∧
    (get_interpolation_schedule onsetStrength s s fps none sr = .ok [0]) ∧
    (∀ arr : List ℚ, s < e →
      (∀ v ∈ onsetStrength (audioSlice s e fps arr sr), 0 ≤ v) →
      (∃ v ∈ onsetStrength (audioSlice s e fps arr sr), 0 < v) →
      ∃ l, get_interpolation_schedule onsetStrength s e fps (some arr) sr
          = .ok l ∧
        l.length = (e - s) + 1 ∧
        (∀ v ∈ l, 0 ≤ v ∧ v ≤ 1) ∧
        List.Chain' (fun a b => a ≤ b) l ∧
        l.getLast? = some 1) := by
  refine ⟨?_, sched_degenerate_uniform onsetStrength s fps sr, ?_⟩
  · intro hse
    refine ⟨linspace 0 1 ((e - s) + 1), rfl, linspace_length _ _ _, ?_,
      linspace_chain_le 0 1 _ (by norm_num), ?_, ?_⟩
    · intro v hv
      exact linspace_mem_bounds 0 1 _ (by norm_num) v hv
    · exact linspace_head 0 1 _ (by omega)
    · exact linspace_getLast 0 1 _ (by omega)
  · intro arr hse hnn hex
    obtain ⟨l, hl, hrest⟩ :=
      audio_schedule_props onsetStrength s e fps sr arr hse hnn hex
    exact ⟨l, hl, hrest⟩

/-- C2 witness: concrete instances of the uniform branch (pair `(0, 2)`)
and the audio branch (pair `(0, 1)`, onset curve `[1, 0]`) of the amended
claim, with every hypothesis discharged by evaluation. -/
theorem C2_amended_fraction_sequences_witness :
    (∃ l, get_interpolation_schedule (fun l => l) 0 2 10 none 10 = .ok l ∧
      l.length = (2 - 0) + 1 ∧
      (∀ v ∈ l, 0 ≤ v ∧ v ≤ 1) ∧
      List.Chain' (fun a b => a ≤ b) l ∧
      l.head? = some 0 ∧ l.getLast? = some 1) ∧
    (∃ l, get_interpolation_schedule (fun _ => [1, 0]) 0 1 1 (some [1]) 1
        = .ok l ∧
      l.length = (1 - 0) + 1 ∧
      (∀ v ∈ l, 0 ≤ v ∧ v ≤ 1) ∧
      List.Chain' (fun a b => a ≤ b) l ∧
      l.getLast? = some 1) :=
  ⟨(C2_amended_fraction_sequences (fun l => l) 0 2 10 10).1 (by decide),
   (C2_amended_fraction_sequences (fun _ => [1, 0]) 0 1 1 1).2.2 [1]
     (by decide) (by decide) (by decide)⟩

end Fractions

end Giffusion
